import Mathlib

/-!
# Verification of the OpenClaw chat-API retrieval pipeline

This file gives a shallow embedding, in Lean 4, of the retrieval core of the
`openclaw-chat-api` repository and proves (or refutes) the behavioural claims
made about it.  The embedded components are:

* the JS `Map`-based association structures used throughout (`mapGet`/`mapSet`
  mirror `Map.get`/`Map.set`: `set` overwrites the value of an existing key in
  place and appends a fresh key at the end, exactly like a JS `Map` preserves
  insertion order);
* the BM25 keyword searcher of `src/rag/bm25-searcher.ts` (tokenisation,
  index construction, Okapi BM25 scoring, phrase/proximity search,
  serialisation);
* the Reciprocal Rank Fusion of `src/rag/fusion.ts`;
* the Cohere reranker fallback of `src/rag/reranker.ts`;
* the confidence gate and the hybrid retrieve/fuse branch of
  `src/app/api/chat/route.ts`;
* the sliding-window chunker of `src/rag/indexer.ts`.

JS numbers are modelled as exact reals (`ℝ`); `Math.log` is `Real.log`.
Discrete data (strings, token positions, map keys) is modelled exactly and
computably.  JS array `sort` with the comparator `(a, b) => b.score - a.score`
is a stable descending sort, embedded below as a stable insertion sort that
keeps insertion order on ties.
-/

namespace OpenClaw

/-! ## JS `Map` as an insertion-ordered association list -/

/-- `Map.get`: value of the first binding of `k`, if any. -/
def mapGet {α β : Type} [DecidableEq α] : List (α × β) → α → Option β
  | [], _ => none
  | (k', v) :: rest, k => if k' = k then some v else mapGet rest k

/-- `Map.set`: overwrite the (first) binding of `k` in place, else append.
On the nodup-key lists produced by JS `Map`s this is exactly `Map.set`. -/
def mapSet {α β : Type} [DecidableEq α] : List (α × β) → α → β → List (α × β)
  | [], k, v => [(k, v)]
  | (k', v') :: rest, k, v =>
      if k' = k then (k, v) :: rest else (k', v') :: mapSet rest k v

/-- Keys of the association list, in insertion order. -/
def mapKeys {α β : Type} (m : List (α × β)) : List α := m.map Prod.fst

@[simp] theorem mapKeys_nil {α β : Type} : mapKeys ([] : List (α × β)) = [] := rfl

@[simp] theorem mapKeys_cons {α β : Type} (k : α) (v : β) (m : List (α × β)) :
    mapKeys ((k, v) :: m) = k :: mapKeys m := rfl

@[simp] theorem mapKeys_append {α β : Type} (m m' : List (α × β)) :
    mapKeys (m ++ m') = mapKeys m ++ mapKeys m' := List.map_append _ _ _

theorem mapGet_eq_none {α β : Type} [DecidableEq α] (m : List (α × β)) (k : α) :
    mapGet m k = none ↔ k ∉ mapKeys m := by
  induction m with
  | nil => simp [mapGet]
  | cons p rest ih =>
    obtain ⟨k', v⟩ := p
    by_cases h : k' = k
    · subst h; simp [mapGet]
    · simp [mapGet, h, ih, Ne.symm h]

theorem mapGet_isSome {α β : Type} [DecidableEq α] (m : List (α × β)) (k : α) :
    (mapGet m k).isSome = true ↔ k ∈ mapKeys m := by
  rw [← Decidable.not_iff_not, ← mapGet_eq_none m k]
  cases mapGet m k <;> simp

theorem mapGet_mapSet_self {α β : Type} [DecidableEq α]
    (m : List (α × β)) (k : α) (v : β) : mapGet (mapSet m k v) k = some v := by
  induction m with
  | nil => simp [mapGet, mapSet]
  | cons p rest ih =>
    obtain ⟨k', v'⟩ := p
    by_cases h : k' = k <;> simp [mapGet, mapSet, h, ih]

theorem mapGet_mapSet_ne {α β : Type} [DecidableEq α]
    (m : List (α × β)) (k k' : α) (v : β) (h : k ≠ k') :
    mapGet (mapSet m k v) k' = mapGet m k' := by
  induction m with
  | nil => simp [mapGet, mapSet, h]
  | cons p rest ih =>
    obtain ⟨k₀, v₀⟩ := p
    by_cases h₀ : k₀ = k
    · subst h₀; simp [mapGet, mapSet, h]
    · simp only [mapSet, if_neg h₀]
      by_cases h₁ : k₀ = k' <;> simp [mapGet, h₁, ih]

theorem mapKeys_mapSet_mem {α β : Type} [DecidableEq α]
    (m : List (α × β)) (k : α) (v : β) (h : k ∈ mapKeys m) :
    mapKeys (mapSet m k v) = mapKeys m := by
  induction m with
  | nil => simp at h
  | cons p rest ih =>
    obtain ⟨k', v'⟩ := p
    by_cases h' : k' = k
    · simp [mapSet, h']
    · rcases List.mem_cons.mp (by simpa using h) with h₀ | h₀
      · exact absurd h₀.symm h'
      · simp [mapSet, h', ih h₀]

theorem mapKeys_mapSet_not_mem {α β : Type} [DecidableEq α]
    (m : List (α × β)) (k : α) (v : β) (h : k ∉ mapKeys m) :
    mapKeys (mapSet m k v) = mapKeys m ++ [k] := by
  induction m with
  | nil => simp [mapSet]
  | cons p rest ih =>
    obtain ⟨k', v'⟩ := p
    simp only [mapKeys_cons, List.mem_cons] at h
    push_neg at h
    simp [mapSet, Ne.symm h.1, ih h.2]

theorem mapSet_not_mem_append {α β : Type} [DecidableEq α]
    (m : List (α × β)) (k : α) (v : β) (h : k ∉ mapKeys m) :
    mapSet m k v = m ++ [(k, v)] := by
  induction m with
  | nil => simp [mapSet]
  | cons p rest ih =>
    obtain ⟨k', v'⟩ := p
    simp only [mapKeys_cons, List.mem_cons] at h
    push_neg at h
    simp [mapSet, Ne.symm h.1, ih h.2]

theorem mapGet_of_mem_nodup {α β : Type} [DecidableEq α]
    (m : List (α × β)) (k : α) (v : β)
    (hnd : (mapKeys m).Nodup) (hmem : (k, v) ∈ m) : mapGet m k = some v := by
  induction m with
  | nil => simp at hmem
  | cons p rest ih =>
    obtain ⟨k', v'⟩ := p
    simp only [mapKeys_cons, List.nodup_cons] at hnd
    rcases List.mem_cons.mp hmem with h | h
    · cases h; simp [mapGet]
    · have hk : k' ≠ k := by
        rintro rfl
        exact hnd.1 (List.mem_map.mpr ⟨(k', v), h, rfl⟩)
      simp [mapGet, hk, ih hnd.2 h]

theorem mem_of_mapGet_eq_some {α β : Type} [DecidableEq α]
    (m : List (α × β)) (k : α) (v : β) (h : mapGet m k = some v) : (k, v) ∈ m := by
  induction m with
  | nil => simp [mapGet] at h
  | cons p rest ih =>
    obtain ⟨k', v'⟩ := p
    by_cases hk : k' = k
    · subst hk; simp [mapGet] at h; simp [h]
    · simp only [mapGet, if_neg hk] at h
      exact List.mem_cons_of_mem _ (ih h)

/-! ## JS `Set` built from a list (first occurrence kept, insertion order) -/

/-- `new Set(list)` then `Array.from`: drop later duplicates, keep order. -/
def setFromAux {α : Type} [DecidableEq α] (seen : List α) : List α → List α
  | [] => []
  | x :: xs => if x ∈ seen then setFromAux seen xs else x :: setFromAux (x :: seen) xs

def setFromList {α : Type} [DecidableEq α] (l : List α) : List α := setFromAux [] l

theorem mem_setFromAux {α : Type} [DecidableEq α] (l : List α) :
    ∀ (seen : List α) (x : α), x ∈ setFromAux seen l ↔ x ∈ l ∧ x ∉ seen := by
  induction l with
  | nil => simp [setFromAux]
  | cons y ys ih =>
    intro seen x
    by_cases hy : y ∈ seen
    · rw [setFromAux, if_pos hy, ih]
      constructor
      · rintro ⟨hx, hs⟩; exact ⟨List.mem_cons_of_mem _ hx, hs⟩
      · rintro ⟨hx, hs⟩
        rcases List.mem_cons.mp hx with rfl | hx
        · exact absurd hy hs
        · exact ⟨hx, hs⟩
    · rw [setFromAux, if_neg hy]
      constructor
      · intro hx
        rcases List.mem_cons.mp hx with rfl | hx
        · exact ⟨List.mem_cons_self _ _, hy⟩
        · rw [ih] at hx
          refine ⟨List.mem_cons_of_mem _ hx.1, fun hs => hx.2 (List.mem_cons_of_mem _ hs)⟩
      · rintro ⟨hx, hs⟩
        rcases List.mem_cons.mp hx with rfl | hx
        · exact List.mem_cons_self _ _
        · by_cases hxy : x = y
          · subst hxy; exact List.mem_cons_self _ _
          · exact List.mem_cons_of_mem _ ((ih _ x).mpr ⟨hx, by
              intro h
              rcases List.mem_cons.mp h with h | h
              · exact hxy h
              · exact hs h⟩)

theorem mem_setFromList {α : Type} [DecidableEq α] (l : List α) (x : α) :
    x ∈ setFromList l ↔ x ∈ l := by
  rw [setFromList, mem_setFromAux]; simp

theorem nodup_setFromAux {α : Type} [DecidableEq α] (l : List α) :
    ∀ seen : List α, (setFromAux seen l).Nodup := by
  induction l with
  | nil => intro seen; simp [setFromAux]
  | cons y ys ih =>
    intro seen
    by_cases hy : y ∈ seen
    · rw [setFromAux, if_pos hy]; exact ih seen
    · rw [setFromAux, if_neg hy]
      refine List.nodup_cons.mpr ⟨fun h => ?_, ih _⟩
      exact ((mem_setFromAux ys _ y).mp h).2 (List.mem_cons_self _ _)

theorem nodup_setFromList {α : Type} [DecidableEq α] (l : List α) :
    (setFromList l).Nodup := nodup_setFromAux l []

/-! ## Stable descending sort on a real-valued key

JS `Array.prototype.sort` with comparator `(a, b) => b.key - a.key` sorts in
descending key order and (per the ECMAScript spec) is stable.  A stable
insertion sort on a strict `>` comparison is an exact model. -/

noncomputable def insertDesc {α : Type} (key : α → ℝ) (x : α) : List α → List α
  | [] => [x]
  | y :: ys => if key y > key x then y :: insertDesc key x ys else x :: y :: ys

noncomputable def sortDesc {α : Type} (key : α → ℝ) : List α → List α
  | [] => []
  | x :: xs => insertDesc key x (sortDesc key xs)

theorem perm_insertDesc {α : Type} (key : α → ℝ) (x : α) (l : List α) :
    List.Perm (insertDesc key x l) (x :: l) := by
  induction l with
  | nil => simp [insertDesc]
  | cons y ys ih =>
    rw [insertDesc]
    by_cases h : key y > key x
    · rw [if_pos h]
      exact List.Perm.trans (ih.cons y) (List.Perm.swap x y ys)
    · rw [if_neg h]

theorem perm_sortDesc {α : Type} (key : α → ℝ) (l : List α) :
    List.Perm (sortDesc key l) l := by
  induction l with
  | nil => simp [sortDesc]
  | cons x xs ih => exact (perm_insertDesc key x (sortDesc key xs)).trans (ih.cons x)

theorem pairwise_insertDesc {α : Type} (key : α → ℝ) (x : α) (l : List α)
    (h : l.Pairwise (fun a b => key b ≤ key a)) :
    (insertDesc key x l).Pairwise (fun a b => key b ≤ key a) := by
  induction l with
  | nil => simp [insertDesc]
  | cons y ys ih =>
    rw [insertDesc]
    rcases List.pairwise_cons.mp h with ⟨hy, hys⟩
    by_cases hxy : key y > key x
    · rw [if_pos hxy]
      refine List.pairwise_cons.mpr ⟨?_, ih hys⟩
      intro b hb
      have := (perm_insertDesc key x ys).mem_iff.mp hb
      rcases List.mem_cons.mp this with rfl | hb'
      · exact le_of_lt hxy
      · exact hy b hb'
    · rw [if_neg hxy]
      refine List.pairwise_cons.mpr ⟨?_, h⟩
      intro b hb
      rcases List.mem_cons.mp hb with rfl | hb
      · exact le_of_not_lt hxy
      · exact (hy b hb).trans (le_of_not_lt hxy)

theorem pairwise_sortDesc {α : Type} (key : α → ℝ) (l : List α) :
    (sortDesc key l).Pairwise (fun a b => key b ≤ key a) := by
  induction l with
  | nil => simp [sortDesc]
  | cons x xs ih => exact pairwise_insertDesc key x _ ih

/-- Sorting commutes with a key-preserving map (used for the RRF
scale-invariance: rescaling semantic scores does not touch the fused key). -/
theorem insertDesc_map {α β : Type} (key : α → ℝ) (key' : β → ℝ) (g : α → β)
    (hg : ∀ a, key' (g a) = key a) (x : α) (l : List α) :
    insertDesc key' (g x) (l.map g) = (insertDesc key x l).map g := by
  induction l with
  | nil => simp [insertDesc]
  | cons y ys ih =>
    simp only [List.map_cons, insertDesc, hg]
    by_cases h : key y > key x
    · simp [if_pos h, ih]
    · simp [if_neg h]

theorem sortDesc_map {α β : Type} (key : α → ℝ) (key' : β → ℝ) (g : α → β)
    (hg : ∀ a, key' (g a) = key a) (l : List α) :
    sortDesc key' (l.map g) = (sortDesc key l).map g := by
  induction l with
  | nil => simp [sortDesc]
  | cons x xs ih =>
    simp only [List.map_cons, sortDesc, ih]
    exact insertDesc_map key key' g hg x _

/-! ## Score accumulation

`scores.set(id, (scores.get(id) || 0) + delta)` iterated over a sequence of
`(id, delta)` operations.  (`scores.get(id) || 0` agrees with the
default-to-`0` lookup: when the key is absent the lookup is `undefined` and
`||` yields `0`; when the stored value is `0`, `|| 0` again yields `0`, the
same value.) -/

/-- Defaulted lookup `scores.get(k) || 0`. -/
noncomputable def getScore {α : Type} [DecidableEq α] (m : List (α × ℝ)) (k : α) : ℝ :=
  (mapGet m k).getD 0

/-- Fold the `(id, delta)` operations into the scores map, exactly as the
nested `for` loops of `BM25Searcher.search` do. -/
noncomputable def accumScores {α : Type} [DecidableEq α]
    (ops : List (α × ℝ)) (m : List (α × ℝ)) : List (α × ℝ) :=
  ops.foldl (fun m kv => mapSet m kv.1 (getScore m kv.1 + kv.2)) m

theorem accumScores_nil {α : Type} [DecidableEq α] (m : List (α × ℝ)) :
    accumScores [] m = m := rfl

theorem accumScores_cons {α : Type} [DecidableEq α]
    (kv : α × ℝ) (ops : List (α × ℝ)) (m : List (α × ℝ)) :
    accumScores (kv :: ops) m = accumScores ops (mapSet m kv.1 (getScore m kv.1 + kv.2)) := rfl

theorem getScore_mapSet_self {α : Type} [DecidableEq α]
    (m : List (α × ℝ)) (k : α) (v : ℝ) : getScore (mapSet m k v) k = v := by
  simp [getScore, mapGet_mapSet_self]

theorem getScore_mapSet_ne {α : Type} [DecidableEq α]
    (m : List (α × ℝ)) (k k' : α) (v : ℝ) (h : k ≠ k') :
    getScore (mapSet m k v) k' = getScore m k' := by
  simp [getScore, mapGet_mapSet_ne m k k' v h]

/-- The accumulated score of a key is its initial score plus the sum of all
deltas carrying that key. -/
theorem getScore_accumScores {α : Type} [DecidableEq α]
    (ops : List (α × ℝ)) :
    ∀ (m : List (α × ℝ)) (k : α),
      getScore (accumScores ops m) k =
        getScore m k + ((ops.filter (fun kv => kv.1 = k)).map Prod.snd).sum := by
  induction ops with
  | nil => intro m k; simp [accumScores_nil]
  | cons kv rest ih =>
    intro m k
    rw [accumScores_cons, ih]
    by_cases hk : kv.1 = k
    · subst hk
      rw [getScore_mapSet_self]
      simp only [List.filter_cons, decide_eq_true_eq, if_pos rfl]
      simp [add_assoc]
    · rw [getScore_mapSet_ne _ _ _ _ hk]
      simp only [List.filter_cons, decide_eq_true_eq, if_neg hk]

theorem mem_mapKeys_accumScores {α : Type} [DecidableEq α]
    (ops : List (α × ℝ)) :
    ∀ (m : List (α × ℝ)) (k : α),
      k ∈ mapKeys (accumScores ops m) ↔ k ∈ mapKeys m ∨ k ∈ ops.map Prod.fst := by
  induction ops with
  | nil => intro m k; simp [accumScores_nil]
  | cons kv rest ih =>
    intro m k
    rw [accumScores_cons, ih]
    by_cases hmem : kv.1 ∈ mapKeys m
    · rw [mapKeys_mapSet_mem _ _ _ hmem]
      constructor
      · rintro (h | h)
        · exact Or.inl h
        · exact Or.inr (List.mem_cons_of_mem _ h)
      · rintro (h | h)
        · exact Or.inl h
        · rcases List.mem_cons.mp h with rfl | h
          · exact Or.inl hmem
          · exact Or.inr h
    · rw [mapKeys_mapSet_not_mem _ _ _ hmem]
      simp only [List.mem_append, List.mem_singleton, List.map_cons, List.mem_cons]
      tauto

theorem nodup_mapKeys_mapSet {α β : Type} [DecidableEq α]
    (m : List (α × β)) (k : α) (v : β) (h : (mapKeys m).Nodup) :
    (mapKeys (mapSet m k v)).Nodup := by
  by_cases hmem : k ∈ mapKeys m
  · rwa [mapKeys_mapSet_mem _ _ _ hmem]
  · rw [mapKeys_mapSet_not_mem _ _ _ hmem]
    simp [List.nodup_append, h, hmem]

theorem nodup_mapKeys_accumScores {α : Type} [DecidableEq α]
    (ops : List (α × ℝ)) :
    ∀ (m : List (α × ℝ)), (mapKeys m).Nodup → (mapKeys (accumScores ops m)).Nodup := by
  induction ops with
  | nil => intro m h; simpa [accumScores_nil] using h
  | cons kv rest ih =>
    intro m h
    rw [accumScores_cons]
    exact ih _ (nodup_mapKeys_mapSet _ _ _ h)

/-! ## Tokenisation (`BM25Searcher.tokenize` and the identical filter inside
`buildTermIndex`)

`text.toLowerCase().replace(/[^\w\s\-_]/g, " ").split(/\s+/)
     .filter(w => w.length > 1 && !STOP_WORDS.has(w))`

`\w` is ASCII `[A-Za-z0-9_]`.  `split(/\s+/)` can produce one empty leading
token (when the text starts with whitespace); that token has length `0` and is
removed by the `w.length > 1` filter, so splitting into maximal nonempty
whitespace-free runs is an exact model of split-then-filter. -/

def STOP_WORDS : List String := [
  "a", "an", "the", "is", "are", "was", "were", "be", "been", "being",
  "have", "has", "had", "do", "does", "did", "will", "would", "could",
  "should", "may", "might", "must", "shall", "can", "need", "to", "of",
  "in", "for", "on", "with", "at", "by", "from", "as", "into", "through",
  "and", "but", "if", "or", "because", "until", "while", "it", "this",
  "that", "these", "those", "i", "me", "my", "we", "you", "your"]

/-- A character the regex `[^\w\s\-_]` keeps unchanged. -/
def keepChar (c : Char) : Char :=
  if c.isAlphanum || c = '_' || c.isWhitespace || c = '-' then c else ' '

/-- Split on whitespace runs, dropping empty tokens. -/
def splitWsAux : List Char → List Char → List String
  | [], cur => if cur.isEmpty then [] else [String.mk cur.reverse]
  | c :: cs, cur =>
      if c.isWhitespace then
        (if cur.isEmpty then splitWsAux cs [] else String.mk cur.reverse :: splitWsAux cs [])
      else splitWsAux cs (c :: cur)

def splitWs (l : List Char) : List String := splitWsAux l []

/-- `BM25Searcher.tokenize` (the same pipeline is inlined in `buildTermIndex`). -/
def jsTokenize (text : String) : List String :=
  (splitWs ((text.toList.map Char.toLower).map keepChar)).filter
    (fun w => w.length > 1 && !(STOP_WORDS.contains w))

/-! ## BM25 data model (`src/rag/bm25-searcher.ts`) -/

structure TermPosting where
  id : String
  freq : ℕ
  positions : List ℕ
  deriving DecidableEq, Repr

structure TermIndex where
  terms : List (String × List TermPosting)
  docLengths : List (String × ℕ)
  avgDocLength : ℝ
  totalDocs : ℕ

structure BM25Result where
  id : String
  score : ℝ

def DEFAULT_K1 : ℝ := 1.5
def DEFAULT_B : ℝ := 0.75

/-- `this.index.terms.get(token)`, with a missing entry read as no postings
(the `search` loop `continue`s on `!postings || postings.length === 0`). -/
def postingsOf (idx : TermIndex) (token : String) : List TermPosting :=
  (mapGet idx.terms token).getD []

/-- `idf = Math.log((N - df + 0.5) / (df + 0.5) + 1)`. -/
noncomputable def idfOf (idx : TermIndex) (token : String) : ℝ :=
  let df : ℕ := (postingsOf idx token).length
  Real.log (((idx.totalDocs : ℝ) - (df : ℝ) + 0.5) / ((df : ℝ) + 0.5) + 1)

/-- `this.index.docLengths.get(posting.id) || avgDL` (a stored length of `0`
is falsy in JS and also falls back to the average). -/
noncomputable def docLenOf (idx : TermIndex) (id : String) : ℝ :=
  match mapGet idx.docLengths id with
  | some n => if n = 0 then idx.avgDocLength else (n : ℝ)
  | none => idx.avgDocLength

/-- One posting's contribution: `idf * (tf*(k1+1)) / (tf + k1*(1 - b + b*(docLength/avgDL)))`. -/
noncomputable def termScore (idx : TermIndex) (k1 b : ℝ) (token : String) (p : TermPosting) : ℝ :=
  idfOf idx token *
    (((p.freq : ℝ) * (k1 + 1)) /
      ((p.freq : ℝ) + k1 * (1 - b + b * (docLenOf idx p.id / idx.avgDocLength))))

/-- The sequence of `(id, termScore)` updates performed by the nested loops of
`BM25Searcher.search`, flattened in execution order. -/
noncomputable def searchContribs (idx : TermIndex) (k1 b : ℝ) (tokens : List String) :
    List (String × ℝ) :=
  tokens.flatMap fun token => (postingsOf idx token).map fun p => (p.id, termScore idx k1 b token p)

/-- Specification-level per-document BM25 score: the sum, over query tokens,
of the contributions of that document's postings for the token. -/
noncomputable def bm25DocScore (idx : TermIndex) (k1 b : ℝ) (tokens : List String) (id : String) : ℝ :=
  (tokens.map fun token =>
    (((postingsOf idx token).filter (fun p => p.id = id)).map (termScore idx k1 b token)).sum).sum

/-- Documents carrying at least one query token, in first-seen posting order
(these are exactly the keys of the `scores` map built by `search`). -/
def searchCandidates (idx : TermIndex) (tokens : List String) : List String :=
  setFromList (tokens.flatMap fun token => (postingsOf idx token).map (·.id))

/-- `BM25Searcher.search(query, limit)`. -/
noncomputable def bm25Search (idx : TermIndex) (k1 b : ℝ) (query : String) (limit : ℕ) :
    List BM25Result :=
  let tokens := jsTokenize query
  if tokens.isEmpty then []
  else
    ((sortDesc (fun r => r.score)
      ((accumScores (searchContribs idx k1 b tokens) []).map fun kv => ⟨kv.1, kv.2⟩)).take limit)

/-! ## Properties of `bm25Search` -/

/-- The final contents of the `scores` map of `search`. -/
noncomputable def searchScoresList (idx : TermIndex) (k1 b : ℝ) (tokens : List String) :
    List (String × ℝ) :=
  accumScores (searchContribs idx k1 b tokens) []

theorem bm25Search_of_ne (idx : TermIndex) (k1 b : ℝ) (query : String) (limit : ℕ)
    (h : ¬(jsTokenize query).isEmpty) :
    bm25Search idx k1 b query limit =
      ((sortDesc (fun r => r.score)
        ((searchScoresList idx k1 b (jsTokenize query)).map fun kv => ⟨kv.1, kv.2⟩)).take limit) := by
  rw [bm25Search]
  simp only [if_neg h]
  rfl

theorem searchContribs_nil (idx : TermIndex) (k1 b : ℝ) :
    searchContribs idx k1 b [] = [] := rfl

theorem searchContribs_cons (idx : TermIndex) (k1 b : ℝ) (t : String) (ts : List String) :
    searchContribs idx k1 b (t :: ts) =
      ((postingsOf idx t).map fun p => (p.id, termScore idx k1 b t p)) ++
        searchContribs idx k1 b ts := by
  simp [searchContribs]

theorem searchContribs_map_fst (idx : TermIndex) (k1 b : ℝ) (tokens : List String) :
    (searchContribs idx k1 b tokens).map Prod.fst =
      tokens.flatMap fun token => (postingsOf idx token).map (·.id) := by
  induction tokens with
  | nil => rfl
  | cons t ts ih =>
    rw [searchContribs_cons, List.map_append, ih, List.flatMap_cons, List.map_map]
    rfl

theorem filter_searchContribs_sum (idx : TermIndex) (k1 b : ℝ) (tokens : List String)
    (id : String) :
    (((searchContribs idx k1 b tokens).filter (fun kv => kv.1 = id)).map Prod.snd).sum =
      bm25DocScore idx k1 b tokens id := by
  induction tokens with
  | nil => simp [searchContribs_nil, bm25DocScore]
  | cons t ts ih =>
    rw [searchContribs_cons, List.filter_append, List.map_append, List.sum_append, ih]
    have hhead :
        (List.map Prod.snd (List.filter (fun kv => decide (kv.1 = id))
          (List.map (fun p => (p.id, termScore idx k1 b t p)) (postingsOf idx t)))).sum =
        (List.map (termScore idx k1 b t)
          (List.filter (fun p => decide (p.id = id)) (postingsOf idx t))).sum := by
      rw [List.filter_map, List.map_map]
      rfl
    simp only [bm25DocScore, List.map_cons, List.sum_cons, hhead]

theorem mem_keys_searchScoresList (idx : TermIndex) (k1 b : ℝ) (tokens : List String)
    (k : String) :
    k ∈ mapKeys (searchScoresList idx k1 b tokens) ↔ k ∈ searchCandidates idx tokens := by
  rw [searchScoresList, mem_mapKeys_accumScores, searchCandidates, mem_setFromList,
    ← searchContribs_map_fst idx k1 b tokens]
  simp

theorem nodup_keys_searchScoresList (idx : TermIndex) (k1 b : ℝ) (tokens : List String) :
    (mapKeys (searchScoresList idx k1 b tokens)).Nodup :=
  nodup_mapKeys_accumScores _ _ (by simp)

theorem score_of_mem_searchScoresList (idx : TermIndex) (k1 b : ℝ) (tokens : List String)
    (k : String) (v : ℝ) (h : (k, v) ∈ searchScoresList idx k1 b tokens) :
    v = bm25DocScore idx k1 b tokens k := by
  have hget := mapGet_of_mem_nodup _ _ _ (nodup_keys_searchScoresList idx k1 b tokens) h
  have := getScore_accumScores (searchContribs idx k1 b tokens) [] k
  rw [← searchScoresList] at this
  rw [getScore, hget] at this
  simpa [getScore, mapGet, filter_searchContribs_sum] using this

theorem mem_searchScoresList_of_candidate (idx : TermIndex) (k1 b : ℝ) (tokens : List String)
    (k : String) (h : k ∈ searchCandidates idx tokens) :
    (k, bm25DocScore idx k1 b tokens k) ∈ searchScoresList idx k1 b tokens := by
  rw [← mem_keys_searchScoresList idx k1 b] at h
  cases hv : mapGet (searchScoresList idx k1 b tokens) k with
  | none => rw [mapGet_eq_none] at hv; exact absurd h hv
  | some v =>
    have hmem := mem_of_mapGet_eq_some _ _ _ hv
    have := score_of_mem_searchScoresList idx k1 b tokens k v hmem
    rwa [← this]

theorem searchCandidates_nil_of_no_postings (idx : TermIndex) (tokens : List String)
    (h : ∀ t ∈ tokens, postingsOf idx t = []) : searchCandidates idx tokens = [] := by
  rw [searchCandidates]
  have : (tokens.flatMap fun token => (postingsOf idx token).map (·.id)) = [] := by
    rw [List.flatMap_eq_nil_iff]
    intro t ht
    rw [h t ht]
    rfl
  rw [this]
  rfl

theorem length_searchScoresList (idx : TermIndex) (k1 b : ℝ) (tokens : List String) :
    (searchScoresList idx k1 b tokens).length = (searchCandidates idx tokens).length := by
  have hperm : List.Perm (mapKeys (searchScoresList idx k1 b tokens))
      (searchCandidates idx tokens) := by
    rw [List.perm_ext_iff_of_nodup (nodup_keys_searchScoresList idx k1 b tokens)
      (by rw [searchCandidates]; exact nodup_setFromList _)]
    exact mem_keys_searchScoresList idx k1 b tokens
  have := hperm.length_eq
  simpa [mapKeys] using this

/-! ## Phrase search (`BM25Searcher.searchPhrase` / `calculatePhraseScore`) -/

/-- The intersection loop of `findDocsWithAllTokens` over the remaining
tokens (`for (let i = 1; ...)`).  A missing posting list returns `[]`; an
empty intersection returns `[]`. -/
def intersectLoop (idx : TermIndex) : List String → List String → List String
  | cand, [] => cand
  | cand, t :: ts =>
      match mapGet idx.terms t with
      | none => []
      | some ps =>
          let docsWithToken := ps.map (·.id)
          let cand' := cand.filter (fun d => d ∈ docsWithToken)
          if cand' = [] then [] else intersectLoop idx cand' ts

/-- `findDocsWithAllTokens(tokens)`. -/
def findDocsWithAllTokens (idx : TermIndex) : List String → List String
  | [] => []
  | t :: ts =>
      match mapGet idx.terms t with
      | none => []
      | some ps => intersectLoop idx (setFromList (ps.map (·.id))) ts

theorem nodup_intersectLoop (idx : TermIndex) (ts : List String) :
    ∀ cand : List String, cand.Nodup → (intersectLoop idx cand ts).Nodup := by
  induction ts with
  | nil => intro cand h; exact h
  | cons t ts ih =>
    intro cand h
    rw [intersectLoop]
    cases mapGet idx.terms t with
    | none => exact List.nodup_nil
    | some ps =>
      simp only []
      by_cases hc : cand.filter (fun d => decide (d ∈ ps.map (·.id))) = []
      · rw [if_pos hc]; exact List.nodup_nil
      · rw [if_neg hc]; exact ih _ (h.filter _)

theorem nodup_findDocsWithAllTokens (idx : TermIndex) (tokens : List String) :
    (findDocsWithAllTokens idx tokens).Nodup := by
  cases tokens with
  | nil => exact List.nodup_nil
  | cons t ts =>
    rw [findDocsWithAllTokens]
    cases mapGet idx.terms t with
    | none => exact List.nodup_nil
    | some ps => exact nodup_intersectLoop idx ts _ (nodup_setFromList _)

/-- The position lists for each token in the given document;
`none` models the early `return 0` of `calculatePhraseScore` when a posting is
missing or has no recorded positions. -/
def tokenPositionsFor (idx : TermIndex) (docId : String) : List String → Option (List (List ℕ))
  | [] => some []
  | t :: ts =>
      match (postingsOf idx t).find? (fun p => p.id = docId) with
      | none => none
      | some p =>
          if p.positions = [] then none
          else (tokenPositionsFor idx docId ts).map (p.positions :: ·)

/-- The inner greedy chase: from the current position, advance through each
subsequent token's position list to the first recorded position strictly
beyond the current one (`tokenPositions[i].find(p => p > currentPos)`). -/
def spanChase (current : ℕ) : List (List ℕ) → Option ℕ
  | [] => some current
  | ps :: rest =>
      match ps.find? (fun p => current < p) with
      | none => none
      | some next => spanChase next rest

/-- The outer loop over the occurrences of the first token, tracking the
minimum span (`minSpan = Infinity` is `none`). -/
def minSpanAux (restLists : List (List ℕ)) (firstPositions : List ℕ) : Option ℕ :=
  firstPositions.foldl
    (fun acc fp =>
      match spanChase fp restLists with
      | none => acc
      | some last =>
          match acc with
          | none => some (last - fp)
          | some m => some (min m (last - fp)))
    none

/-- The minimal in-order span of the query tokens' positions inside `docId`,
per the greedy procedure of `calculatePhraseScore`; `none` when no valid
in-order chain exists (or when some position data is missing). -/
def minSpanOf (idx : TermIndex) (tokens : List String) (docId : String) : Option ℕ :=
  match tokenPositionsFor idx docId tokens with
  | none => none
  | some [] => none
  | some (first :: rest) => minSpanAux rest first

/-- `this.search(...)[0]?.score || 0`: the top plain BM25 score, defaulting
to `0` on an empty result (`|| 0` agrees on a stored `0`). -/
noncomputable def headScore : List BM25Result → ℝ
  | [] => 0
  | r :: _ => r.score

/-- The base score used by `calculatePhraseScore`: the **top result** of a
plain `search` over the whole index for the joined token bag — not the
candidate document's own score. -/
noncomputable def phraseBase (idx : TermIndex) (k1 b : ℝ) (tokens : List String) : ℝ :=
  headScore (bm25Search idx k1 b (String.intercalate " " tokens) 1)

/-- `calculatePhraseScore(docId, tokens)`. -/
noncomputable def calculatePhraseScore (idx : TermIndex) (k1 b : ℝ) (docId : String)
    (tokens : List String) : ℝ :=
  match tokenPositionsFor idx docId tokens with
  | none => 0
  | some [] => 0
  | some (first :: rest) =>
      match minSpanAux rest first with
      | none => phraseBase idx k1 b tokens * 0.5
      | some m =>
          phraseBase idx k1 b tokens * (1 + ((tokens.length : ℝ) - 1) / ((m : ℝ) + 1))

/-- `BM25Searcher.searchPhrase(phrase, limit)`. -/
noncomputable def searchPhrase (idx : TermIndex) (k1 b : ℝ) (phrase : String) (limit : ℕ) :
    List BM25Result :=
  let tokens := jsTokenize phrase
  if tokens.length < 2 then bm25Search idx k1 b phrase limit
  else
    let candidateDocs := findDocsWithAllTokens idx tokens
    if candidateDocs = [] then bm25Search idx k1 b phrase limit
    else
      let scores := candidateDocs.foldl
        (fun m docId =>
          let ps := calculatePhraseScore idx k1 b docId tokens
          if ps > 0 then mapSet m docId ps else m) []
      ((sortDesc (fun r => r.score) (scores.map fun kv => ⟨kv.1, kv.2⟩)).take limit)

/-- The scores map built by `searchPhrase` over nodup candidates is the list
of positive phrase scores in candidate order. -/
theorem phraseScores_eq (idx : TermIndex) (k1 b : ℝ) (tokens : List String) :
    ∀ (cand : List String) (acc : List (String × ℝ)),
      cand.Nodup → (∀ d ∈ cand, d ∉ mapKeys acc) →
      cand.foldl
        (fun m docId =>
          let ps := calculatePhraseScore idx k1 b docId tokens
          if ps > 0 then mapSet m docId ps else m) acc =
      acc ++ cand.filterMap (fun d =>
        let ps := calculatePhraseScore idx k1 b d tokens
        if ps > 0 then some (d, ps) else none) := by
  intro cand
  induction cand with
  | nil => intro acc _ _; simp
  | cons d ds ih =>
    intro acc hnd hdisj
    rcases List.nodup_cons.mp hnd with ⟨hd, hds⟩
    rw [List.foldl_cons, List.filterMap_cons]
    by_cases hpos : calculatePhraseScore idx k1 b d tokens > 0
    · simp only [if_pos hpos]
      rw [ih (mapSet acc d (calculatePhraseScore idx k1 b d tokens)) hds ?_]
      · rw [mapSet_not_mem_append acc d _ (hdisj d (List.mem_cons_self _ _)),
          List.append_assoc]
        rfl
      · intro x hx
        rw [mapKeys_mapSet_not_mem acc d _ (hdisj d (List.mem_cons_self _ _))]
        simp only [List.mem_append, List.mem_singleton]
        push_neg
        exact ⟨hdisj x (List.mem_cons_of_mem _ hx), fun hxd => hd (hxd ▸ hx)⟩
    · simp only [if_neg hpos]
      exact ih acc hds (fun x hx => hdisj x (List.mem_cons_of_mem _ hx))

/-- The final contents of the `scores` map of `searchPhrase`: one entry per
candidate with a positive phrase score, in candidate order. -/
noncomputable def phraseScoresList (idx : TermIndex) (k1 b : ℝ) (tokens : List String) :
    List (String × ℝ) :=
  (findDocsWithAllTokens idx tokens).filterMap fun d =>
    let ps := calculatePhraseScore idx k1 b d tokens
    if ps > 0 then some (d, ps) else none

theorem searchPhrase_of_candidates (idx : TermIndex) (k1 b : ℝ) (phrase : String) (limit : ℕ)
    (h2 : ¬(jsTokenize phrase).length < 2)
    (hcand : findDocsWithAllTokens idx (jsTokenize phrase) ≠ []) :
    searchPhrase idx k1 b phrase limit =
      ((sortDesc (fun r => r.score)
        ((phraseScoresList idx k1 b (jsTokenize phrase)).map fun kv => ⟨kv.1, kv.2⟩)).take limit) := by
  rw [searchPhrase]
  simp only [if_neg h2, if_neg hcand]
  rw [phraseScores_eq idx k1 b (jsTokenize phrase) (findDocsWithAllTokens idx (jsTokenize phrase))
    [] (nodup_findDocsWithAllTokens idx _) (by intro d _; simp)]
  rw [List.nil_append]
  rfl

theorem calculatePhraseScore_eq_of_pos (idx : TermIndex) (k1 b : ℝ) (docId : String)
    (tokens : List String) (hpos : 0 < calculatePhraseScore idx k1 b docId tokens) :
    calculatePhraseScore idx k1 b docId tokens =
      match minSpanOf idx tokens docId with
      | some m => phraseBase idx k1 b tokens * (1 + ((tokens.length : ℝ) - 1) / ((m : ℝ) + 1))
      | none => phraseBase idx k1 b tokens * 0.5 := by
  cases htp : tokenPositionsFor idx docId tokens with
  | none => exfalso; rw [calculatePhraseScore, htp] at hpos; simp at hpos
  | some tps =>
    cases tps with
    | nil => exfalso; rw [calculatePhraseScore, htp] at hpos; simp at hpos
    | cons first rest =>
      have hcalc : calculatePhraseScore idx k1 b docId tokens =
          match minSpanAux rest first with
          | none => phraseBase idx k1 b tokens * 0.5
          | some m =>
              phraseBase idx k1 b tokens * (1 + ((tokens.length : ℝ) - 1) / ((m : ℝ) + 1)) := by
        rw [calculatePhraseScore, htp]
      have hspan : minSpanOf idx tokens docId = minSpanAux rest first := by
        rw [minSpanOf, htp]
      rw [hcalc, hspan]
      cases minSpanAux rest first <;> rfl

/-- C1 (amended).  Phrase scoring: every result the phrase search returns for
a multi-token phrase with a nonempty candidate set is a candidate scored as
`base * (1 + idealSpan/(minSpan+1))` (or `base * 0.5` with no valid in-order
span), where `base` is the **corpus-top** plain BM25 score for the joined
token bag — the same base for every candidate — not the candidate's own plain
BM25 score; and every candidate with a positive phrase score is returned when
`limit` allows. -/
theorem claimC1_phrase_scoring (idx : TermIndex) (phrase : String) (limit : ℕ)
    (h2 : 2 ≤ (jsTokenize phrase).length)
    (hcand : findDocsWithAllTokens idx (jsTokenize phrase) ≠ []) :
    (∀ r ∈ searchPhrase idx DEFAULT_K1 DEFAULT_B phrase limit,
      r.id ∈ findDocsWithAllTokens idx (jsTokenize phrase) ∧
      0 < r.score ∧
      r.score = (match minSpanOf idx (jsTokenize phrase) r.id with
        | some m => phraseBase idx DEFAULT_K1 DEFAULT_B (jsTokenize phrase) *
            (1 + (((jsTokenize phrase).length : ℝ) - 1) / ((m : ℝ) + 1))
        | none => phraseBase idx DEFAULT_K1 DEFAULT_B (jsTokenize phrase) * 0.5)) ∧
    ((findDocsWithAllTokens idx (jsTokenize phrase)).length ≤ limit →
      ∀ id ∈ findDocsWithAllTokens idx (jsTokenize phrase),
        0 < calculatePhraseScore idx DEFAULT_K1 DEFAULT_B id (jsTokenize phrase) →
        id ∈ (searchPhrase idx DEFAULT_K1 DEFAULT_B phrase limit).map BM25Result.id) := by
  have h2' : ¬(jsTokenize phrase).length < 2 := not_lt.mpr h2
  have hrw := searchPhrase_of_candidates idx DEFAULT_K1 DEFAULT_B phrase limit h2' hcand
  set tokens := jsTokenize phrase with htok
  set cand := findDocsWithAllTokens idx tokens with hc
  set scores := phraseScoresList idx DEFAULT_K1 DEFAULT_B tokens with hs
  set L : List BM25Result := scores.map (fun kv => ⟨kv.1, kv.2⟩) with hL
  set SL := sortDesc (fun r : BM25Result => r.score) L with hSL
  have hperm : List.Perm SL L := perm_sortDesc _ _
  constructor
  · intro r hr
    rw [hrw] at hr
    have hrL : r ∈ L := hperm.mem_iff.mp ((List.take_sublist _ _).subset hr)
    rcases List.mem_map.mp hrL with ⟨kv, hkv, hrkv⟩
    rcases List.mem_filterMap.mp hkv with ⟨d, hd, hfd⟩
    by_cases hpos : calculatePhraseScore idx DEFAULT_K1 DEFAULT_B d tokens > 0
    · simp only [if_pos hpos] at hfd
      cases hfd
      cases hrkv
      refine ⟨hd, hpos, ?_⟩
      exact calculatePhraseScore_eq_of_pos idx DEFAULT_K1 DEFAULT_B d tokens hpos
    · rw [if_neg hpos] at hfd
      exact Option.noConfusion hfd
  · intro hlen id hid hpos
    have hlen' : scores.length ≤ limit :=
      le_trans (List.length_filterMap_le _ _) hlen
    have hSLlen : SL.length ≤ limit := by
      rw [hperm.length_eq, hL, List.length_map]; exact hlen'
    rw [hrw, List.take_of_length_le hSLlen]
    have hentry : (id, calculatePhraseScore idx DEFAULT_K1 DEFAULT_B id tokens) ∈ scores := by
      rw [hs, phraseScoresList]
      exact List.mem_filterMap.mpr ⟨id, hid, by simp only [if_pos hpos]⟩
    have hinL : (⟨id, calculatePhraseScore idx DEFAULT_K1 DEFAULT_B id tokens⟩ : BM25Result) ∈ L :=
      List.mem_map.mpr ⟨_, hentry, rfl⟩
    exact List.mem_map.mpr ⟨_, hperm.mem_iff.mpr hinL, rfl⟩

/-- C2.  BM25 `search(query, limit)` scores each chunk as the sum, over query
tokens present in the index, of `idf * (f*(k1+1)) / (f + k1*(1 - b +
b*(docLen/avgDocLen)))` with `idf = ln((N - df + 0.5)/(df + 0.5) + 1)` and
default parameters `k1 = 1.5`, `b = 0.75`; it returns at most `limit`
chunk-score pairs, exactly `min limit (number of matching chunks)` of them, in
descending score order, and every matching chunk left out scores no more than
every returned one.  A query that tokenizes to nothing, or whose tokens occur
in no chunk, returns the empty list. -/
theorem claimC2_bm25_search (idx : TermIndex) (query : String) (limit : ℕ) :
    (jsTokenize query = [] → bm25Search idx DEFAULT_K1 DEFAULT_B query limit = []) ∧
    ((∀ t ∈ jsTokenize query, postingsOf idx t = []) →
      bm25Search idx DEFAULT_K1 DEFAULT_B query limit = []) ∧
    (∀ r ∈ bm25Search idx DEFAULT_K1 DEFAULT_B query limit,
      r.score = bm25DocScore idx DEFAULT_K1 DEFAULT_B (jsTokenize query) r.id ∧
        r.id ∈ searchCandidates idx (jsTokenize query)) ∧
    (bm25Search idx DEFAULT_K1 DEFAULT_B query limit).Pairwise
      (fun a b => b.score ≤ a.score) ∧
    (bm25Search idx DEFAULT_K1 DEFAULT_B query limit).length
        = min limit (searchCandidates idx (jsTokenize query)).length ∧
    (∀ id ∈ searchCandidates idx (jsTokenize query),
      id ∉ (bm25Search idx DEFAULT_K1 DEFAULT_B query limit).map BM25Result.id →
      ∀ r ∈ bm25Search idx DEFAULT_K1 DEFAULT_B query limit,
        bm25DocScore idx DEFAULT_K1 DEFAULT_B (jsTokenize query) id ≤ r.score) := by
  by_cases hemp : (jsTokenize query).isEmpty
  · have hnil : jsTokenize query = [] := List.isEmpty_iff.mp hemp
    have hres : bm25Search idx DEFAULT_K1 DEFAULT_B query limit = [] := by
      rw [bm25Search]; simp [hemp]
    have hcand : searchCandidates idx (jsTokenize query) = [] := by
      rw [hnil]; rfl
    refine ⟨fun _ => hres, fun _ => hres, ?_, ?_, ?_, ?_⟩
    · intro r hr; rw [hres] at hr; simp at hr
    · rw [hres]; exact List.Pairwise.nil
    · rw [hres, hcand]; simp
    · intro id hid; rw [hcand] at hid; simp at hid
  · set tokens := jsTokenize query with htok
    have hrw := bm25Search_of_ne idx DEFAULT_K1 DEFAULT_B query limit hemp
    set L : List BM25Result :=
      (searchScoresList idx DEFAULT_K1 DEFAULT_B tokens).map (fun kv => ⟨kv.1, kv.2⟩) with hL
    set SL := sortDesc (fun r : BM25Result => r.score) L with hSL
    have hperm : List.Perm SL L := perm_sortDesc _ _
    have hpw : SL.Pairwise (fun a b : BM25Result => b.score ≤ a.score) :=
      pairwise_sortDesc _ _
    have hmemL : ∀ r : BM25Result, r ∈ L →
        r.score = bm25DocScore idx DEFAULT_K1 DEFAULT_B tokens r.id ∧
          r.id ∈ searchCandidates idx tokens := by
      intro r hr
      rcases List.mem_map.mp hr with ⟨kv, hkv, hrkv⟩
      obtain ⟨k, v⟩ := kv
      cases hrkv
      constructor
      · exact score_of_mem_searchScoresList idx DEFAULT_K1 DEFAULT_B tokens k v hkv
      · rw [← mem_keys_searchScoresList idx DEFAULT_K1 DEFAULT_B tokens]
        exact List.mem_map.mpr ⟨(k, v), hkv, rfl⟩
    refine ⟨?_, ?_, ?_, ?_, ?_, ?_⟩
    · intro h; simp [h] at hemp
    · intro h
      have hc := searchCandidates_nil_of_no_postings idx tokens h
      have hlen0 : (searchScoresList idx DEFAULT_K1 DEFAULT_B tokens).length = 0 := by
        rw [length_searchScoresList, hc]; rfl
      have hLnil : L = [] := by
        rw [hL, List.map_eq_nil_iff]
        exact List.length_eq_zero.mp hlen0
      have hSLnil : SL = [] := by rw [hSL, hLnil]; rfl
      rw [hrw, hSLnil, List.take_nil]
    · intro r hr
      rw [hrw] at hr
      exact hmemL r (hperm.mem_iff.mp ((List.take_sublist _ _).subset hr))
    · rw [hrw]
      exact List.Pairwise.sublist (List.take_sublist _ _) hpw
    · rw [hrw, List.length_take, hperm.length_eq, hL, List.length_map,
        length_searchScoresList]
    · intro id hid hnotin r hr
      have hentry : (id, bm25DocScore idx DEFAULT_K1 DEFAULT_B tokens id) ∈
          searchScoresList idx DEFAULT_K1 DEFAULT_B tokens :=
        mem_searchScoresList_of_candidate idx DEFAULT_K1 DEFAULT_B tokens id hid
      have hinL : (⟨id, bm25DocScore idx DEFAULT_K1 DEFAULT_B tokens id⟩ : BM25Result) ∈ L :=
        List.mem_map.mpr ⟨_, hentry, rfl⟩
      have hinSL := hperm.mem_iff.mpr hinL
      rw [hrw] at hr hnotin
      have hdrop : (⟨id, bm25DocScore idx DEFAULT_K1 DEFAULT_B tokens id⟩ : BM25Result) ∈
          SL.drop limit := by
        rw [← List.take_append_drop limit SL] at hinSL
        rcases List.mem_append.mp hinSL with h | h
        · exact absurd (List.mem_map.mpr ⟨_, h, rfl⟩) hnotin
        · exact h
      exact hpw.rel_of_mem_take_of_mem_drop hr hdrop

/-! ## Index construction (`buildTermIndex`) -/

structure IndexChunk where
  id : String
  content : String
  title : String
  deriving DecidableEq, Repr

/-- The tokens of one chunk: `` `${chunk.title} ${chunk.content}` `` run
through the same lowercase/replace/split/filter pipeline as `tokenize`. -/
def chunkTokens (c : IndexChunk) : List String := jsTokenize (c.title ++ " " ++ c.content)

/-- The per-chunk `termFreqs` map: `tokens.forEach((token, position) => ...)`,
recording the frequency and the ordered position list of each token. -/
def termFreqsOf (tokens : List String) : List (String × (ℕ × List ℕ)) :=
  tokens.enum.foldl
    (fun m pt =>
      match mapGet m pt.2 with
      | some fp => mapSet m pt.2 (fp.1 + 1, fp.2 ++ [pt.1])
      | none => mapSet m pt.2 (1, [pt.1]))
    []

/-- One iteration of the chunk loop of `buildTermIndex`: update `docLengths`,
`totalLength`, and append this chunk's postings to the global term map. -/
def buildStep (st : List (String × List TermPosting) × List (String × ℕ) × ℕ)
    (c : IndexChunk) : List (String × List TermPosting) × List (String × ℕ) × ℕ :=
  let tokens := chunkTokens c
  let docLengths := mapSet st.2.1 c.id tokens.length
  let totalLength := st.2.2 + tokens.length
  let terms := (termFreqsOf tokens).foldl
    (fun t td => mapSet t td.1 ((mapGet t td.1).getD [] ++ [⟨c.id, td.2.1, td.2.2⟩])) st.1
  (terms, docLengths, totalLength)

/-- `buildTermIndex(chunks)`.  `avgDocLength` is
`chunks.length > 0 ? totalLength / chunks.length : 0`. -/
noncomputable def buildTermIndex (chunks : List IndexChunk) : TermIndex :=
  let st := chunks.foldl buildStep ([], [], 0)
  { terms := st.1
    docLengths := st.2.1
    avgDocLength := if 0 < chunks.length then (st.2.2 : ℝ) / (chunks.length : ℝ) else 0
    totalDocs := chunks.length }

/-- Sum of the values of a `docLengths` map (`sum(docLengths.values())`). -/
def sumVals (m : List (String × ℕ)) : ℕ := (m.map Prod.snd).sum

theorem mem_mapKeys_mapSet_of_mem {α β : Type} [DecidableEq α]
    (m : List (α × β)) (k k' : α) (v : β) (h : k' ∈ mapKeys m) :
    k' ∈ mapKeys (mapSet m k v) := by
  by_cases hk : k ∈ mapKeys m
  · rwa [mapKeys_mapSet_mem _ _ _ hk]
  · rw [mapKeys_mapSet_not_mem _ _ _ hk]
    exact List.mem_append_left _ h

theorem self_mem_mapKeys_mapSet {α β : Type} [DecidableEq α]
    (m : List (α × β)) (k : α) (v : β) : k ∈ mapKeys (mapSet m k v) := by
  have := mapGet_mapSet_self m k v
  rw [← mapGet_isSome, this]
  rfl

theorem mem_mapSet {α β : Type} [DecidableEq α]
    (m : List (α × β)) (k : α) (v : β) (p : α × β) (h : p ∈ mapSet m k v) :
    p = (k, v) ∨ p ∈ m := by
  induction m with
  | nil => simp [mapSet] at h; exact Or.inl h
  | cons q rest ih =>
    obtain ⟨k', v'⟩ := q
    by_cases hk : k' = k
    · rw [mapSet, if_pos hk] at h
      rcases List.mem_cons.mp h with h | h
      · exact Or.inl h
      · exact Or.inr (List.mem_cons_of_mem _ h)
    · rw [mapSet, if_neg hk] at h
      rcases List.mem_cons.mp h with h | h
      · exact Or.inr (h ▸ List.mem_cons_self _ _)
      · rcases ih h with h | h
        · exact Or.inl h
        · exact Or.inr (List.mem_cons_of_mem _ h)

/-- Chunk-loop invariant: every chunk id referenced by any posting list of the
accumulated term map is a key of the accumulated `docLengths` map. -/
def PostingsCovered (terms : List (String × List TermPosting))
    (docLengths : List (String × ℕ)) : Prop :=
  ∀ tp ∈ terms, ∀ p ∈ tp.2, p.id ∈ mapKeys docLengths

theorem postingsCovered_inner (cid : String) (dl : List (String × ℕ))
    (hcid : cid ∈ mapKeys dl) (freqs : List (String × (ℕ × List ℕ))) :
    ∀ terms : List (String × List TermPosting), PostingsCovered terms dl →
      PostingsCovered
        (freqs.foldl
          (fun t td => mapSet t td.1 ((mapGet t td.1).getD [] ++ [⟨cid, td.2.1, td.2.2⟩])) terms)
        dl := by
  induction freqs with
  | nil => intro terms h; exact h
  | cons td rest ih =>
    intro terms h
    rw [List.foldl_cons]
    refine ih _ ?_
    intro tp htp p hp
    rcases mem_mapSet _ _ _ _ htp with h' | h'
    · subst h'
      rcases List.mem_append.mp hp with h' | h'
      · cases hget : mapGet terms td.1 with
        | none => rw [hget] at h'; simp at h'
        | some ps =>
          rw [hget] at h'
          exact h _ (mem_of_mapGet_eq_some _ _ _ hget) p h'
      · rcases List.mem_singleton.mp h' with rfl
        exact hcid
    · exact h _ h' p hp

theorem postingsCovered_fold (chunks : List IndexChunk) :
    ∀ st, PostingsCovered st.1 st.2.1 →
      PostingsCovered (chunks.foldl buildStep st).1 (chunks.foldl buildStep st).2.1 := by
  induction chunks with
  | nil => intro st h; exact h
  | cons c rest ih =>
    intro st h
    rw [List.foldl_cons]
    refine ih _ ?_
    show PostingsCovered _ (mapSet st.2.1 c.id (chunkTokens c).length)
    refine postingsCovered_inner c.id _ (self_mem_mapKeys_mapSet _ _ _) _ _ ?_
    intro tp htp p hp
    exact mem_mapKeys_mapSet_of_mem _ _ _ _ (h tp htp p hp)

/-- With pairwise-distinct chunk ids, each `docLengths.set` touches a fresh
key, so the final `docLengths` lists the chunks in order and `totalLength` is
the sum of their token counts. -/
theorem buildFold_docLengths (chunks : List IndexChunk)
    (hnd : (chunks.map IndexChunk.id).Nodup) :
    ∀ (terms : List (String × List TermPosting)) (dl : List (String × ℕ)) (tl : ℕ),
      (∀ c ∈ chunks, c.id ∉ mapKeys dl) →
      (chunks.foldl buildStep (terms, dl, tl)).2.1
          = dl ++ chunks.map (fun c => (c.id, (chunkTokens c).length)) ∧
        (chunks.foldl buildStep (terms, dl, tl)).2.2
          = tl + (chunks.map (fun c => (chunkTokens c).length)).sum := by
  induction chunks with
  | nil => intro terms dl tl _; simp
  | cons c rest ih =>
    intro terms dl tl hfresh
    rw [List.map_cons] at hnd
    rcases List.nodup_cons.mp hnd with ⟨hcid, hndrest⟩
    rw [List.foldl_cons]
    have hrec := ih hndrest
      ((termFreqsOf (chunkTokens c)).foldl
        (fun t td => mapSet t td.1 ((mapGet t td.1).getD [] ++ [⟨c.id, td.2.1, td.2.2⟩])) terms)
      (mapSet dl c.id (chunkTokens c).length) (tl + (chunkTokens c).length) ?_
    · rw [buildStep] at *
      refine ⟨?_, ?_⟩
      · rw [hrec.1, mapSet_not_mem_append dl c.id _ (hfresh c (List.mem_cons_self _ _)),
          List.append_assoc]
        simp
      · rw [hrec.2]
        simp [add_assoc]
    · intro c' hc'
      rw [mapKeys_mapSet_not_mem dl c.id _ (hfresh c (List.mem_cons_self _ _))]
      simp only [List.mem_append, List.mem_singleton]
      push_neg
      refine ⟨hfresh c' (List.mem_cons_of_mem _ hc'), fun heq => ?_⟩
      exact hcid (heq ▸ List.mem_map.mpr ⟨c', hc', rfl⟩)

/-- C7 (amended).  For chunk corpora with pairwise-distinct ids,
`buildTermIndex` satisfies `avgDocLength = sum(docLengths.values())/totalDocs`
exactly; for **every** corpus (distinct ids or not), every chunk id referenced
in any posting list is a key of `docLengths`. -/
theorem claimC7_termIndex_invariant (chunks : List IndexChunk) :
    ((chunks.map IndexChunk.id).Nodup →
      (buildTermIndex chunks).avgDocLength =
        (sumVals (buildTermIndex chunks).docLengths : ℝ) / ((buildTermIndex chunks).totalDocs : ℝ)) ∧
    (∀ tp ∈ (buildTermIndex chunks).terms, ∀ p ∈ tp.2,
      p.id ∈ mapKeys (buildTermIndex chunks).docLengths) := by
  constructor
  · intro hnd
    have hfold := buildFold_docLengths chunks hnd [] [] 0 (by intro c _; simp)
    rw [buildTermIndex]
    simp only []
    rcases Nat.eq_zero_or_pos chunks.length with hlen | hlen
    · rw [List.length_eq_zero.mp hlen]
      norm_num [sumVals]
    · rw [if_pos hlen, hfold.1, hfold.2]
      rw [sumVals]
      simp only [List.nil_append, Nat.zero_add, List.map_map]
      norm_num
      congr 1
  · have := postingsCovered_fold chunks ([], [], 0) (by intro tp htp; simp at htp)
    intro tp htp p hp
    exact this tp htp p hp

/-- A corpus with two chunks sharing the id `"d"`: the second
`docLengths.set("d", 0)` overwrites the first chunk's length `2`, so
`sum(docLengths.values()) = 0` while `totalLength = 2`. -/
def cexC7chunks : List IndexChunk := [⟨"d", "alpha beta", ""⟩, ⟨"d", "", ""⟩]

/-- C7, counterexample to the claim as stated (which quantifies over *every*
chunk corpus): on a corpus with a duplicated chunk id, `avgDocLength`
(= `totalLength/totalDocs` = 1) differs from
`sum(docLengths.values())/totalDocs` (= 0/2 = 0), because `Map.set`
overwrites the duplicated key. -/
theorem claimC7_counterexample :
    (buildTermIndex cexC7chunks).avgDocLength ≠
      (sumVals (buildTermIndex cexC7chunks).docLengths : ℝ) /
        ((buildTermIndex cexC7chunks).totalDocs : ℝ) := by
  have hdl : (buildTermIndex cexC7chunks).docLengths = [("d", 0)] := by decide
  have htl : (List.foldl buildStep ([], [], 0) cexC7chunks).2.2 = 2 := by decide
  have havg : (buildTermIndex cexC7chunks).avgDocLength = 1 := by
    show (if 0 < cexC7chunks.length then
        ((List.foldl buildStep ([], [], 0) cexC7chunks).2.2 : ℝ) / (cexC7chunks.length : ℝ)
      else 0) = 1
    rw [htl]
    norm_num [cexC7chunks]
  have htd : (buildTermIndex cexC7chunks).totalDocs = 2 := rfl
  rw [havg, hdl, htd]
  have hsv : sumVals [("d", 0)] = 0 := rfl
  rw [hsv]
  norm_num

/-! ## Serialisation (`serializeTermIndex` / `deserializeTermIndex`)

`serializeTermIndex` emits `JSON.stringify` of
`{terms: Array.from(map), docLengths: Array.from(map), avgDocLength,
totalDocs}`; `deserializeTermIndex` parses it back and rebuilds the maps with
`new Map(entries)`.  The JSON text encode/parse pair is the identity on this
structured payload, so the serialised form is modelled as the structured
quadruple itself; `new Map(entries)` is modelled exactly (`set` per entry in
order). -/

structure SerializedTermIndex where
  terms : List (String × List TermPosting)
  docLengths : List (String × ℕ)
  avgDocLength : ℝ
  totalDocs : ℕ

def serializeTermIndex (idx : TermIndex) : SerializedTermIndex :=
  ⟨idx.terms, idx.docLengths, idx.avgDocLength, idx.totalDocs⟩

/-- `new Map(entries)`: insert every entry, in order. -/
def mapFromEntries {α β : Type} [DecidableEq α] (l : List (α × β)) : List (α × β) :=
  l.foldl (fun m kv => mapSet m kv.1 kv.2) []

def deserializeTermIndex (s : SerializedTermIndex) : TermIndex :=
  { terms := mapFromEntries s.terms
    docLengths := mapFromEntries s.docLengths
    avgDocLength := s.avgDocLength
    totalDocs := s.totalDocs }

theorem foldl_mapSet_of_nodup {α β : Type} [DecidableEq α] (l : List (α × β)) :
    ∀ acc : List (α × β), (mapKeys (acc ++ l)).Nodup →
      l.foldl (fun m kv => mapSet m kv.1 kv.2) acc = acc ++ l := by
  induction l with
  | nil => intro acc _; simp
  | cons kv rest ih =>
    intro acc hnd
    obtain ⟨k, v⟩ := kv
    have hnotin : k ∉ mapKeys acc := by
      have : (mapKeys acc ++ k :: mapKeys rest).Nodup := by
        simpa using hnd
      intro hk
      rcases List.nodup_append.mp this with ⟨-, -, hdisj⟩
      exact hdisj hk (List.mem_cons_self _ _)
    rw [List.foldl_cons, mapSet_not_mem_append acc k v hnotin, ih]
    · simp
    · simpa using hnd

theorem mapFromEntries_of_nodup {α β : Type} [DecidableEq α] (l : List (α × β))
    (hnd : (mapKeys l).Nodup) : mapFromEntries l = l := by
  rw [mapFromEntries, foldl_mapSet_of_nodup l [] (by simpa using hnd)]
  simp

/-- C8.  Serialisation round-trip: for every `TermIndex` (whose `Map`s, as JS
`Map`s, have pairwise-distinct keys), deserialising the serialised form
reproduces the index exactly — terms, docLengths, avgDocLength and totalDocs. -/
theorem claimC8_serialization_round_trip (idx : TermIndex)
    (hterms : (mapKeys idx.terms).Nodup) (hdl : (mapKeys idx.docLengths).Nodup) :
    deserializeTermIndex (serializeTermIndex idx) = idx := by
  rw [deserializeTermIndex, serializeTermIndex]
  simp only [mapFromEntries_of_nodup _ hterms, mapFromEntries_of_nodup _ hdl]

/-! ## Reciprocal Rank Fusion (`src/rag/fusion.ts`) -/

/-- `Omit<DocsChunk, "vector">`. -/
structure DocsChunk where
  id : String
  path : String
  title : String
  content : String
  url : String
  deriving DecidableEq, Repr

structure RetrievalResult where
  chunk : DocsChunk
  score : ℝ

structure FusedResult where
  id : String
  chunk : DocsChunk
  semanticRank : Option ℕ
  semanticScore : Option ℝ
  keywordRank : Option ℕ
  keywordScore : Option ℝ
  fusedScore : ℝ

def DEFAULT_RRF_K : ℝ := 60

/-- The per-chunk accumulator record of `reciprocalRankFusion`. -/
structure FusedInfo where
  semanticRank : Option ℕ
  semanticScore : Option ℝ
  keywordRank : Option ℕ
  keywordScore : Option ℝ
  rrfScore : ℝ

/-- `semanticResults.forEach((result, index) => ...)`: rank `index + 1`
contributes `1/(k + rank)`. -/
noncomputable def rrfSemStep (k : ℝ) (m : List (String × FusedInfo)) (ir : ℕ × RetrievalResult) :
    List (String × FusedInfo) :=
  let rank := ir.1 + 1
  let contribution := 1 / (k + (rank : ℝ))
  match mapGet m ir.2.chunk.id with
  | some e =>
      mapSet m ir.2.chunk.id
        { e with
          semanticRank := some rank
          semanticScore := some ir.2.score
          rrfScore := e.rrfScore + contribution }
  | none =>
      mapSet m ir.2.chunk.id ⟨some rank, some ir.2.score, none, none, contribution⟩

/-- `keywordResults.forEach((result, index) => ...)`. -/
noncomputable def rrfKwStep (k : ℝ) (m : List (String × FusedInfo)) (ir : ℕ × BM25Result) :
    List (String × FusedInfo) :=
  let rank := ir.1 + 1
  let contribution := 1 / (k + (rank : ℝ))
  match mapGet m ir.2.id with
  | some e =>
      mapSet m ir.2.id
        { e with
          keywordRank := some rank
          keywordScore := some ir.2.score
          rrfScore := e.rrfScore + contribution }
  | none =>
      mapSet m ir.2.id ⟨none, none, some rank, some ir.2.score, contribution⟩

/-- Assemble the output records, looking chunk data up in the semantic list
first and then in the supplied chunk map, and silently skipping (with a
warning in the source) any id with no chunk data. -/
noncomputable def rrfBuild (sem : List RetrievalResult) (chunks : List (String × DocsChunk))
    (fused : List (String × FusedInfo)) : List FusedResult :=
  fused.filterMap fun kv =>
    match (match sem.find? (fun r => r.chunk.id = kv.1) with
           | some r => some r.chunk
           | none => mapGet chunks kv.1) with
    | none => none
    | some chunk =>
        some
          { id := kv.1
            chunk := ⟨chunk.id, chunk.path, chunk.title, chunk.content, chunk.url⟩
            semanticRank := kv.2.semanticRank
            semanticScore := kv.2.semanticScore
            keywordRank := kv.2.keywordRank
            keywordScore := kv.2.keywordScore
            fusedScore := kv.2.rrfScore }

/-- `reciprocalRankFusion(semanticResults, keywordResults, chunks, k)`. -/
noncomputable def reciprocalRankFusion (sem : List RetrievalResult) (kw : List BM25Result)
    (chunks : List (String × DocsChunk)) (k : ℝ) : List FusedResult :=
  let fusedScores := kw.enum.foldl (rrfKwStep k) (sem.enum.foldl (rrfSemStep k) [])
  sortDesc (fun f => f.fusedScore) (rrfBuild sem chunks fusedScores)

/-- Sum of the `1/(k + rank)` contributions of a ranked id list to one id. -/
noncomputable def rrfContrib (k : ℝ) (ids : List String) (id : String) : ℝ :=
  ((ids.enum.filter fun ir => ir.2 = id).map fun ir => 1 / (k + ((ir.1 + 1 : ℕ) : ℝ))).sum

/-- The accumulated `rrfScore` of an id (missing ids score `0`). -/
noncomputable def getRrf (m : List (String × FusedInfo)) (id : String) : ℝ :=
  ((mapGet m id).map FusedInfo.rrfScore).getD 0

theorem getRrf_rrfSemStep (k : ℝ) (m : List (String × FusedInfo)) (ir : ℕ × RetrievalResult)
    (id : String) :
    getRrf (rrfSemStep k m ir) id =
      getRrf m id + (if ir.2.chunk.id = id then 1 / (k + ((ir.1 + 1 : ℕ) : ℝ)) else 0) := by
  rw [rrfSemStep]
  cases hget : mapGet m ir.2.chunk.id with
  | some e =>
    by_cases hid : ir.2.chunk.id = id
    · subst hid
      rw [if_pos rfl, getRrf, mapGet_mapSet_self]
      rw [getRrf, hget]
      simp
    · rw [if_neg hid, getRrf, mapGet_mapSet_ne _ _ _ _ hid, getRrf, add_zero]
  | none =>
    by_cases hid : ir.2.chunk.id = id
    · subst hid
      rw [if_pos rfl, getRrf, mapGet_mapSet_self]
      rw [getRrf, hget]
      simp
    · rw [if_neg hid, getRrf, mapGet_mapSet_ne _ _ _ _ hid, getRrf, add_zero]

theorem getRrf_rrfKwStep (k : ℝ) (m : List (String × FusedInfo)) (ir : ℕ × BM25Result)
    (id : String) :
    getRrf (rrfKwStep k m ir) id =
      getRrf m id + (if ir.2.id = id then 1 / (k + ((ir.1 + 1 : ℕ) : ℝ)) else 0) := by
  rw [rrfKwStep]
  cases hget : mapGet m ir.2.id with
  | some e =>
    by_cases hid : ir.2.id = id
    · subst hid
      rw [if_pos rfl, getRrf, mapGet_mapSet_self]
      rw [getRrf, hget]
      simp
    · rw [if_neg hid, getRrf, mapGet_mapSet_ne _ _ _ _ hid, getRrf, add_zero]
  | none =>
    by_cases hid : ir.2.id = id
    · subst hid
      rw [if_pos rfl, getRrf, mapGet_mapSet_self]
      rw [getRrf, hget]
      simp
    · rw [if_neg hid, getRrf, mapGet_mapSet_ne _ _ _ _ hid, getRrf, add_zero]

theorem getRrf_semFold (k : ℝ) (l : List (ℕ × RetrievalResult)) :
    ∀ (m : List (String × FusedInfo)) (id : String),
      getRrf (l.foldl (rrfSemStep k) m) id =
        getRrf m id +
          ((l.filter fun ir => ir.2.chunk.id = id).map
            fun ir => 1 / (k + ((ir.1 + 1 : ℕ) : ℝ))).sum := by
  induction l with
  | nil => intro m id; simp
  | cons ir rest ih =>
    intro m id
    rw [List.foldl_cons, ih, getRrf_rrfSemStep, List.filter_cons]
    by_cases hid : ir.2.chunk.id = id
    · simp only [hid]
      simp [Nat.add_comm]
      ring
    · simp [hid]

theorem getRrf_kwFold (k : ℝ) (l : List (ℕ × BM25Result)) :
    ∀ (m : List (String × FusedInfo)) (id : String),
      getRrf (l.foldl (rrfKwStep k) m) id =
        getRrf m id +
          ((l.filter fun ir => ir.2.id = id).map
            fun ir => 1 / (k + ((ir.1 + 1 : ℕ) : ℝ))).sum := by
  induction l with
  | nil => intro m id; simp
  | cons ir rest ih =>
    intro m id
    rw [List.foldl_cons, ih, getRrf_rrfKwStep, List.filter_cons]
    by_cases hid : ir.2.id = id
    · simp only [hid]
      simp [Nat.add_comm]
      ring
    · simp [hid]

theorem nodup_keys_rrfSemStep (k : ℝ) (m : List (String × FusedInfo))
    (ir : ℕ × RetrievalResult) (h : (mapKeys m).Nodup) :
    (mapKeys (rrfSemStep k m ir)).Nodup := by
  rw [rrfSemStep]
  cases mapGet m ir.2.chunk.id <;> exact nodup_mapKeys_mapSet _ _ _ h

theorem nodup_keys_rrfKwStep (k : ℝ) (m : List (String × FusedInfo))
    (ir : ℕ × BM25Result) (h : (mapKeys m).Nodup) :
    (mapKeys (rrfKwStep k m ir)).Nodup := by
  rw [rrfKwStep]
  cases mapGet m ir.2.id <;> exact nodup_mapKeys_mapSet _ _ _ h

theorem nodup_keys_rrfFolds (k : ℝ) (semL : List (ℕ × RetrievalResult))
    (kwL : List (ℕ × BM25Result)) :
    (mapKeys (kwL.foldl (rrfKwStep k) (semL.foldl (rrfSemStep k) []))).Nodup := by
  have hsem : ∀ m : List (String × FusedInfo), (mapKeys m).Nodup →
      (mapKeys (semL.foldl (rrfSemStep k) m)).Nodup := by
    induction semL with
    | nil => intro m h; exact h
    | cons ir rest ih => intro m h; exact ih _ (nodup_keys_rrfSemStep k m ir h)
  have hkw : ∀ m : List (String × FusedInfo), (mapKeys m).Nodup →
      (mapKeys (kwL.foldl (rrfKwStep k) m)).Nodup := by
    induction kwL with
    | nil => intro m h; exact h
    | cons ir rest ih => intro m h; exact ih _ (nodup_keys_rrfKwStep k m ir h)
  exact hkw _ (hsem [] (by simp))

theorem rrfContrib_eq_semFilter (k : ℝ) (sem : List RetrievalResult) (id : String) :
    rrfContrib k (sem.map fun r => r.chunk.id) id =
      ((sem.enum.filter fun ir => ir.2.chunk.id = id).map
        fun ir => 1 / (k + ((ir.1 + 1 : ℕ) : ℝ))).sum := by
  rw [rrfContrib, List.enum_map]
  rw [List.filter_map, List.map_map]
  congr 1

theorem rrfContrib_eq_kwFilter (k : ℝ) (kw : List BM25Result) (id : String) :
    rrfContrib k (kw.map fun r => r.id) id =
      ((kw.enum.filter fun ir => ir.2.id = id).map
        fun ir => 1 / (k + ((ir.1 + 1 : ℕ) : ℝ))).sum := by
  rw [rrfContrib, List.enum_map]
  rw [List.filter_map, List.map_map]
  congr 1

/-- Rescaling the semantic-score field of the accumulator record. -/
noncomputable def scaleInfo (c : ℝ) (e : FusedInfo) : FusedInfo :=
  { e with semanticScore := e.semanticScore.map fun s => c * s }

/-- Rescaling the semantic-score field of an output record. -/
noncomputable def scaleFused (c : ℝ) (f : FusedResult) : FusedResult :=
  { f with semanticScore := f.semanticScore.map fun s => c * s }

/-- Rescaling every score of the semantic input list (order unchanged). -/
noncomputable def scaleSem (c : ℝ) (sem : List RetrievalResult) : List RetrievalResult :=
  sem.map fun r => { r with score := c * r.score }

def mapVal {α β : Type} (g : β → β) (m : List (α × β)) : List (α × β) :=
  m.map fun kv => (kv.1, g kv.2)

theorem mapGet_mapVal {α β : Type} [DecidableEq α] (g : β → β) (m : List (α × β)) (k : α) :
    mapGet (mapVal g m) k = (mapGet m k).map g := by
  induction m with
  | nil => simp [mapVal, mapGet]
  | cons kv rest ih =>
    obtain ⟨k', v⟩ := kv
    by_cases h : k' = k
    · simp [mapVal, mapGet, h]
    · simpa [mapVal, mapGet, h] using ih

theorem mapSet_mapVal {α β : Type} [DecidableEq α] (g : β → β) (m : List (α × β))
    (k : α) (v : β) : mapSet (mapVal g m) k (g v) = mapVal g (mapSet m k v) := by
  induction m with
  | nil => simp [mapVal, mapSet]
  | cons kv rest ih =>
    obtain ⟨k', v'⟩ := kv
    by_cases h : k' = k
    · simp [mapVal, mapSet, h]
    · simpa [mapVal, mapSet, h] using ih

theorem rrfSemStep_scale (k c : ℝ) (m : List (String × FusedInfo)) (ir : ℕ × RetrievalResult) :
    rrfSemStep k (mapVal (scaleInfo c) m) (ir.1, { ir.2 with score := c * ir.2.score }) =
      mapVal (scaleInfo c) (rrfSemStep k m ir) := by
  rw [rrfSemStep, rrfSemStep]
  simp only [mapGet_mapVal]
  cases hget : mapGet m ir.2.chunk.id with
  | some e =>
    show mapSet (mapVal (scaleInfo c) m) ir.2.chunk.id _ = _
    rw [← mapSet_mapVal]
    rfl
  | none =>
    show mapSet (mapVal (scaleInfo c) m) ir.2.chunk.id _ = _
    rw [← mapSet_mapVal]
    rfl

theorem rrfKwStep_scale (k c : ℝ) (m : List (String × FusedInfo)) (ir : ℕ × BM25Result) :
    rrfKwStep k (mapVal (scaleInfo c) m) ir = mapVal (scaleInfo c) (rrfKwStep k m ir) := by
  rw [rrfKwStep, rrfKwStep]
  simp only [mapGet_mapVal]
  cases hget : mapGet m ir.2.id with
  | some e =>
    show mapSet (mapVal (scaleInfo c) m) ir.2.id _ = _
    rw [← mapSet_mapVal]
    rfl
  | none =>
    show mapSet (mapVal (scaleInfo c) m) ir.2.id _ = _
    rw [← mapSet_mapVal]
    rfl

theorem semFold_scale (k c : ℝ) (sem : List RetrievalResult) :
    (scaleSem c sem).enum.foldl (rrfSemStep k) [] =
      mapVal (scaleInfo c) (sem.enum.foldl (rrfSemStep k) []) := by
  rw [scaleSem, List.enum_map, List.foldl_map]
  have : ∀ (l : List (ℕ × RetrievalResult)) (m : List (String × FusedInfo)),
      l.foldl (fun acc ir => rrfSemStep k acc (Prod.map id (fun r => { r with score := c * r.score }) ir))
        (mapVal (scaleInfo c) m) =
      mapVal (scaleInfo c) (l.foldl (rrfSemStep k) m) := by
    intro l
    induction l with
    | nil => intro m; rfl
    | cons ir rest ih =>
      intro m
      obtain ⟨i, r⟩ := ir
      rw [List.foldl_cons, List.foldl_cons]
      have hstep : rrfSemStep k (mapVal (scaleInfo c) m)
          (Prod.map id (fun r : RetrievalResult => { r with score := c * r.score }) (i, r)) =
          mapVal (scaleInfo c) (rrfSemStep k m (i, r)) := rrfSemStep_scale k c m (i, r)
      rw [hstep, ih]
  simpa using this sem.enum []

theorem kwFold_scale (k c : ℝ) (kw : List BM25Result) (m : List (String × FusedInfo)) :
    kw.enum.foldl (rrfKwStep k) (mapVal (scaleInfo c) m) =
      mapVal (scaleInfo c) (kw.enum.foldl (rrfKwStep k) m) := by
  have : ∀ (l : List (ℕ × BM25Result)) (m : List (String × FusedInfo)),
      l.foldl (rrfKwStep k) (mapVal (scaleInfo c) m) =
        mapVal (scaleInfo c) (l.foldl (rrfKwStep k) m) := by
    intro l
    induction l with
    | nil => intro m; rfl
    | cons ir rest ih =>
      intro m
      rw [List.foldl_cons, List.foldl_cons, rrfKwStep_scale, ih]
  exact this _ m

theorem rrfBuild_scale (c : ℝ) (sem : List RetrievalResult)
    (chunks : List (String × DocsChunk)) (fused : List (String × FusedInfo)) :
    rrfBuild (scaleSem c sem) chunks (mapVal (scaleInfo c) fused) =
      (rrfBuild sem chunks fused).map (scaleFused c) := by
  rw [rrfBuild, rrfBuild, mapVal, List.filterMap_map, List.map_filterMap]
  apply List.filterMap_congr
  intro kv _
  have hfind : (scaleSem c sem).find? (fun r => r.chunk.id = kv.1) =
      (sem.find? (fun r => r.chunk.id = kv.1)).map fun r => { r with score := c * r.score } := by
    rw [scaleSem, List.find?_map]
    rfl
  show (match
      (match (scaleSem c sem).find? (fun r => r.chunk.id = kv.1) with
       | some r => some r.chunk
       | none => mapGet chunks kv.1) with
    | none => none
    | some chunk => some _) = _
  rw [hfind]
  cases sem.find? (fun r => r.chunk.id = kv.1) with
  | some r =>
    cases kv
    rfl
  | none =>
    cases mapGet chunks kv.1 with
    | some chunk => cases kv; rfl
    | none => rfl

/-- C6.  Reciprocal Rank Fusion is rank-order-only: each item at 1-based rank
`r` contributes exactly `1/(k+r)` to its chunk's fused score, and multiplying
every semantic input score by a positive constant leaves the fused id ranking
(indeed everything except the reported `semanticScore`) unchanged. -/
theorem claimC6_rrf_rank_order_only (sem : List RetrievalResult) (kw : List BM25Result)
    (chunks : List (String × DocsChunk)) (k c : ℝ) (hc : 0 < c) :
    (∀ f ∈ reciprocalRankFusion sem kw chunks k,
      f.fusedScore = rrfContrib k (sem.map fun r => r.chunk.id) f.id +
        rrfContrib k (kw.map fun r => r.id) f.id) ∧
    (reciprocalRankFusion (scaleSem c sem) kw chunks k).map FusedResult.id =
      (reciprocalRankFusion sem kw chunks k).map FusedResult.id := by
  constructor
  · intro f hf
    rw [reciprocalRankFusion] at hf
    have hperm := perm_sortDesc (fun f : FusedResult => f.fusedScore)
      (rrfBuild sem chunks (kw.enum.foldl (rrfKwStep k) (sem.enum.foldl (rrfSemStep k) [])))
    have hf' := hperm.mem_iff.mp hf
    rw [rrfBuild] at hf'
    rcases List.mem_filterMap.mp hf' with ⟨kv, hkv, hbuild⟩
    have hscore : f.fusedScore = kv.2.rrfScore ∧ f.id = kv.1 := by
      rcases hchunk : (match sem.find? (fun r => r.chunk.id = kv.1) with
          | some r => some r.chunk
          | none => mapGet chunks kv.1) with _ | chunk
      · rw [hchunk] at hbuild; exact Option.noConfusion hbuild
      · rw [hchunk] at hbuild
        cases hbuild
        exact ⟨rfl, rfl⟩
    have hnd := nodup_keys_rrfFolds k sem.enum kw.enum
    have hget := mapGet_of_mem_nodup _ _ _ hnd hkv
    have hrrf : getRrf (kw.enum.foldl (rrfKwStep k) (sem.enum.foldl (rrfSemStep k) [])) kv.1
        = kv.2.rrfScore := by
      rw [getRrf, hget]
      rfl
    rw [hscore.1, hscore.2, ← hrrf, getRrf_kwFold, getRrf_semFold,
      rrfContrib_eq_semFilter, rrfContrib_eq_kwFilter]
    have : getRrf [] kv.1 = 0 := rfl
    rw [this, zero_add]
  · rw [reciprocalRankFusion, reciprocalRankFusion, semFold_scale, kwFold_scale, rrfBuild_scale]
    rw [sortDesc_map (fun f : FusedResult => f.fusedScore) (fun f => f.fusedScore)
      (scaleFused c) (fun a => rfl)]
    rw [List.map_map]
    simp [Function.comp, scaleFused]

/-! ## Reranker (`src/rag/reranker.ts`)

`Reranker.rerank` calls the external Cohere endpoint; a network error throws,
and a non-success (`!response.ok`) response also throws (`throw new Error`)
into the same `catch`, which returns the fallback list.  The external call is
modelled as an `Except` parameter: `.ok items` for a parsed success response,
`.error` for either failure mode. -/

structure RerankDocument where
  id : String
  content : String
  deriving DecidableEq, Repr

structure RerankResult where
  id : String
  content : String
  relevanceScore : ℝ
  originalRank : ℕ

structure CohereItem where
  index : ℕ
  relevance_score : ℝ

def emptyRerankDocument : RerankDocument := ⟨"", ""⟩

/-- `Reranker.rerank(query, documents, topN)` with the external call's outcome
made explicit. -/
noncomputable def rerank (backend : Except String (List CohereItem)) (query : String)
    (documents : List RerankDocument) (topN : ℕ) : List RerankResult :=
  if documents = [] then []
  else
    let effectiveTopN := min topN documents.length
    match backend with
    | .ok results =>
        results.map fun r =>
          let d := documents.getD r.index emptyRerankDocument
          ⟨d.id, d.content, r.relevance_score, r.index⟩
    | .error _ =>
        (documents.take effectiveTopN).enum.map fun ir =>
          ⟨ir.2.id, ir.2.content, 1 - ((ir.1 : ℝ) / (documents.length : ℝ)), ir.1⟩

/-- C5.  Reranker fallback: on any failure of the external scoring call the
failure is not propagated — the result is the first `min(topN, length)` input
documents in their original order, with scores `1 - index/total` that are
strictly decreasing; in particular, with an always-erroring backend,
`rerank(query, [d1,d2,d3], 2)` returns `[d1, d2]` with
`relevanceScore(d1) = 1 > 2/3 = relevanceScore(d2)`. -/
theorem claimC5_reranker_fallback (e : String) (query : String)
    (documents : List RerankDocument) (topN : ℕ) :
    ((rerank (.error e) query documents topN).map RerankResult.id =
      (documents.take (min topN documents.length)).map RerankDocument.id) ∧
    ((rerank (.error e) query documents topN).map RerankResult.relevanceScore =
      (List.range (min topN documents.length)).map
        (fun i : ℕ => 1 - ((i : ℝ) / (documents.length : ℝ)))) ∧
    ((rerank (.error e) query documents topN).map RerankResult.relevanceScore).Pairwise
      (fun a b => a > b) ∧
    (∀ d1 d2 d3 : RerankDocument,
      (rerank (.error e) query [d1, d2, d3] 2).map (fun r => (r.id, r.relevanceScore)) =
        [(d1.id, 1), (d2.id, 1 - 1 / 3)] ∧ (1 : ℝ) > 1 - 1 / 3) := by
  have hids : ∀ (docs : List RerankDocument) (n : ℕ), docs ≠ [] →
      (rerank (.error e) query docs n).map RerankResult.id =
        (docs.take (min n docs.length)).map RerankDocument.id := by
    intro docs n hne
    rw [rerank, if_neg hne]
    show ((docs.take (min n docs.length)).enum.map _).map RerankResult.id = _
    rw [List.map_map]
    have : (RerankResult.id ∘ fun ir : ℕ × RerankDocument =>
        (⟨ir.2.id, ir.2.content, 1 - ((ir.1 : ℝ) / (docs.length : ℝ)), ir.1⟩ : RerankResult))
        = (RerankDocument.id ∘ Prod.snd) := rfl
    rw [this, ← List.map_map, List.enum_map_snd]
  have hscores : ∀ (docs : List RerankDocument) (n : ℕ), docs ≠ [] →
      (rerank (.error e) query docs n).map RerankResult.relevanceScore =
        (List.range (min n docs.length)).map
          (fun i : ℕ => 1 - ((i : ℝ) / (docs.length : ℝ))) := by
    intro docs n hne
    rw [rerank, if_neg hne]
    show ((docs.take (min n docs.length)).enum.map _).map RerankResult.relevanceScore = _
    rw [List.map_map]
    have : (RerankResult.relevanceScore ∘ fun ir : ℕ × RerankDocument =>
        (⟨ir.2.id, ir.2.content, 1 - ((ir.1 : ℝ) / (docs.length : ℝ)), ir.1⟩ : RerankResult))
        = ((fun i : ℕ => 1 - ((i : ℝ) / (docs.length : ℝ))) ∘ Prod.fst) := rfl
    rw [this, ← List.map_map, List.enum_map_fst, List.length_take, min_assoc, min_self]
  refine ⟨?_, ?_, ?_, ?_⟩
  · by_cases hne : documents = []
    · subst hne; simp [rerank]
    · exact hids documents topN hne
  · by_cases hne : documents = []
    · subst hne; simp [rerank]
    · exact hscores documents topN hne
  · by_cases hne : documents = []
    · subst hne; exact List.Pairwise.nil
    · rw [hscores documents topN hne]
      have hlen : (0 : ℝ) < (documents.length : ℝ) := by
        have : documents.length ≠ 0 := fun h => hne (List.length_eq_zero.mp h)
        exact_mod_cast Nat.pos_of_ne_zero this
      refine List.Pairwise.map _ ?_ (List.pairwise_lt_range _)
      intro a b hab
      have : (a : ℝ) / (documents.length : ℝ) < (b : ℝ) / (documents.length : ℝ) := by
        apply div_lt_div_of_pos_right _ hlen
        exact_mod_cast hab
      linarith
  · intro d1 d2 d3
    constructor
    · have hne : ([d1, d2, d3] : List RerankDocument) ≠ [] := by simp
      rw [rerank, if_neg hne]
      show (([d1, d2, d3].take (min 2 3)).enum.map _).map _ = _
      norm_num [List.enum, List.enumFrom]
    · norm_num

/-! ## Chunker (`chunkContent` in `src/rag/indexer.ts`)

Content is modelled as a list of characters so the index arithmetic of the
sliding window is explicit.  `generateChunkId` hashes `` `${url}:${index}` ``
with SHA-256; the id is abstracted as the `(url, index)` pair it
deterministically encodes.  The `while` loop is embedded with explicit fuel
(`none` = the loop is still running after `fuel` iterations), which lets both
termination and non-termination be stated. -/

structure DocPage where
  url : String
  path : String
  title : String
  content : List Char
  deriving DecidableEq, Repr

structure Chunk where
  id : String × ℕ
  path : String
  title : String
  content : List Char
  url : String
  deriving DecidableEq, Repr

/-- `content.slice(start, end)` for `0 ≤ start ≤ end ≤ length`. -/
def jsSlice (l : List Char) (a b : ℕ) : List Char := (l.take b).drop a

/-- `String.prototype.trim()`. -/
def jsTrim (l : List Char) : List Char :=
  ((l.dropWhile Char.isWhitespace).reverse.dropWhile Char.isWhitespace).reverse

def isMatchAt (pat l : List Char) (i : ℕ) : Bool := pat.isPrefixOf (l.drop i)

/-- `content.lastIndexOf(pat, pos)`: the largest start index `≤ pos` where
`pat` occurs (`none` for JS's `-1`). -/
def lastIndexOfAt (pat l : List Char) (pos : ℕ) : Option ℕ :=
  (List.range (pos + 1)).foldl (fun acc i => if isMatchAt pat l i then some i else acc) none

/-- `const breakPoints = [". ", ".\n", "\n\n", "\n", " "]`. -/
def breakPoints : List (List Char) :=
  [['.', ' '], ['.', '\n'], ['\n', '\n'], ['\n'], [' ']]

/-- The boundary-snapping loop: the first breakpoint whose last occurrence
lies strictly beyond `start + chunkSize/2` moves `end` to just after it
(`end = lastBreak + bp.length; break`); otherwise `end` is unchanged.  The JS
comparison `lastBreak > start + chunkSize / 2` is over exact (here integer or
half-integer) numbers, so it is written as the equivalent integer comparison
`2*lastBreak > 2*start + chunkSize`. -/
def snapEndAux (content : List Char) (chunkSize start end0 : ℕ) : List (List Char) → ℕ
  | [] => end0
  | bp :: rest =>
      match lastIndexOfAt bp content end0 with
      | some lastBreak =>
          if 2 * start + chunkSize < 2 * lastBreak then lastBreak + bp.length
          else snapEndAux content chunkSize start end0 rest
      | none => snapEndAux content chunkSize start end0 rest

/-- One pushed chunk (`title` gets a `(Part n)` suffix past the first). -/
def chunkMk (page : DocPage) (chunkIndex : ℕ) (text : List Char) : Chunk :=
  { id := (page.url, chunkIndex)
    path := page.path
    title := page.title ++ (if 0 < chunkIndex then " (Part " ++ toString (chunkIndex + 1) ++ ")" else "")
    content := text
    url := page.url }

/-- The sliding-window `while` loop of `chunkContent`, with fuel. -/
def chunkLoop (page : DocPage) (chunkSize overlap : ℕ) :
    ℕ → ℕ → ℕ → List Chunk → Option (List Chunk)
  | 0, start, _, acc => if start < page.content.length then none else some acc
  | fuel + 1, start, chunkIndex, acc =>
      if start < page.content.length then
        let end0 := min (start + chunkSize) page.content.length
        let endF := if end0 < page.content.length then
            snapEndAux page.content chunkSize start end0 breakPoints
          else end0
        let chunkText := jsTrim (jsSlice page.content start endF)
        let acc' := if 50 < chunkText.length then acc ++ [chunkMk page chunkIndex chunkText] else acc
        let chunkIndex' := if 50 < chunkText.length then chunkIndex + 1 else chunkIndex
        let start' := endF - overlap
        if page.content.length - overlap ≤ start' then some acc'
        else chunkLoop page chunkSize overlap fuel start' chunkIndex' acc'
      else some acc

/-- `chunkContent(page, chunkSize, overlap)`: one untrimmed, unfiltered chunk
for short content, else the sliding-window loop (fuel `length + 1` suffices
whenever the loop terminates at all under `overlap < chunkSize/2`). -/
def chunkContent (page : DocPage) (chunkSize overlap : ℕ) : Option (List Chunk) :=
  if page.content.length ≤ chunkSize then
    some [{ id := (page.url, 0), path := page.path, title := page.title,
            content := page.content, url := page.url }]
  else chunkLoop page chunkSize overlap (page.content.length + 1) 0 0 []

theorem snapEndAux_cases (content : List Char) (chunkSize start end0 : ℕ) :
    ∀ bps : List (List Char),
      snapEndAux content chunkSize start end0 bps = end0 ∨
        ∃ L : ℕ, L ≤ snapEndAux content chunkSize start end0 bps ∧
          2 * start + chunkSize < 2 * L := by
  intro bps
  induction bps with
  | nil => exact Or.inl rfl
  | cons bp rest ih =>
    cases hli : lastIndexOfAt bp content end0 with
    | none =>
      have hred : snapEndAux content chunkSize start end0 (bp :: rest) =
          snapEndAux content chunkSize start end0 rest := by
        rw [snapEndAux, hli]
      rw [hred]
      exact ih
    | some lastBreak =>
      have hred : snapEndAux content chunkSize start end0 (bp :: rest) =
          if 2 * start + chunkSize < 2 * lastBreak then lastBreak + bp.length
          else snapEndAux content chunkSize start end0 rest := by
        rw [snapEndAux, hli]
      rw [hred]
      by_cases h : 2 * start + chunkSize < 2 * lastBreak
      · rw [if_pos h]
        exact Or.inr ⟨lastBreak, Nat.le_add_right _ _, h⟩
      · rw [if_neg h]
        exact ih

/-- Progress: under `2*overlap < chunkSize`, whenever the loop neither breaks
nor finishes, the window start strictly increases. -/
theorem chunk_progress (content : List Char) (chunkSize overlap start : ℕ)
    (hcs : 2 * overlap < chunkSize) (hlt : start + chunkSize < content.length) :
    start + 1 ≤ snapEndAux content chunkSize start (min (start + chunkSize) content.length)
      breakPoints - overlap := by
  have hmin : min (start + chunkSize) content.length = start + chunkSize :=
    min_eq_left (le_of_lt hlt)
  rcases snapEndAux_cases content chunkSize start (min (start + chunkSize) content.length)
      breakPoints with h | ⟨L, hL, hq⟩
  · rw [h, hmin]
    omega
  · omega

/-- Termination of the loop, by induction on fuel with the measure
`length + 1 ≤ fuel + start`. -/
theorem chunkLoop_isSome (page : DocPage) (chunkSize overlap : ℕ)
    (hcs : 2 * overlap < chunkSize) :
    ∀ (fuel start chunkIndex : ℕ) (acc : List Chunk),
      page.content.length + 1 ≤ fuel + start →
      (chunkLoop page chunkSize overlap fuel start chunkIndex acc).isSome = true := by
  intro fuel
  induction fuel with
  | zero =>
    intro start chunkIndex acc hmeas
    rw [chunkLoop, if_neg (by omega)]
    rfl
  | succ fuel ih =>
    intro start chunkIndex acc hmeas
    rw [chunkLoop]
    by_cases hstart : start < page.content.length
    · rw [if_pos hstart]
      simp only []
      by_cases hend : min (start + chunkSize) page.content.length < page.content.length
      · rw [if_pos hend]
        have hlt : start + chunkSize < page.content.length := by
          rcases Nat.lt_or_ge (start + chunkSize) page.content.length with h | h
          · exact h
          · exact absurd hend (by rw [min_eq_right h]; exact lt_irrefl _)
        by_cases hbreak : page.content.length - overlap ≤
            snapEndAux page.content chunkSize start (min (start + chunkSize) page.content.length)
              breakPoints - overlap
        · rw [if_pos hbreak]
          rfl
        · rw [if_neg hbreak]
          exact ih _ _ _ (by
            have := chunk_progress page.content chunkSize overlap start hcs hlt
            omega)
      · rw [if_neg hend]
        have hminlen : min (start + chunkSize) page.content.length = page.content.length := by
          rcases Nat.lt_or_ge (start + chunkSize) page.content.length with h | h
          · exact absurd (by rw [min_eq_left (le_of_lt h)]; exact h) hend
          · exact min_eq_right h
        rw [hminlen, if_pos (le_refl _)]
        rfl
    · rw [if_neg hstart]
      rfl

/-- The loop only ever pushes trimmed windows longer than 50 characters. -/
theorem chunkLoop_content_gt (page : DocPage) (chunkSize overlap : ℕ) :
    ∀ (fuel start chunkIndex : ℕ) (acc : List Chunk) (l : List Chunk),
      (∀ c ∈ acc, 50 < c.content.length) →
      chunkLoop page chunkSize overlap fuel start chunkIndex acc = some l →
      ∀ c ∈ l, 50 < c.content.length := by
  intro fuel
  induction fuel with
  | zero =>
    intro start chunkIndex acc l hacc hloop
    rw [chunkLoop] at hloop
    by_cases hstart : start < page.content.length
    · rw [if_pos hstart] at hloop; exact Option.noConfusion hloop
    · rw [if_neg hstart] at hloop
      cases hloop
      exact hacc
  | succ fuel ih =>
    intro start chunkIndex acc l hacc hloop
    rw [chunkLoop] at hloop
    by_cases hstart : start < page.content.length
    · rw [if_pos hstart] at hloop
      simp only [] at hloop
      set endF := if min (start + chunkSize) page.content.length < page.content.length then
          snapEndAux page.content chunkSize start (min (start + chunkSize) page.content.length)
            breakPoints
        else min (start + chunkSize) page.content.length with hendF
      set chunkText := jsTrim (jsSlice page.content start endF) with htext
      have hacc' : ∀ c ∈ (if 50 < chunkText.length then
          acc ++ [chunkMk page chunkIndex chunkText] else acc), 50 < c.content.length := by
        by_cases hlen : 50 < chunkText.length
        · rw [if_pos hlen]
          intro c hc
          rcases List.mem_append.mp hc with hc | hc
          · exact hacc c hc
          · rcases List.mem_singleton.mp hc with rfl
            exact hlen
        · rw [if_neg hlen]
          exact hacc
      by_cases hbreak : page.content.length - overlap ≤ endF - overlap
      · rw [if_pos hbreak] at hloop
        cases hloop
        exact hacc'
      · rw [if_neg hbreak] at hloop
        exact ih _ _ _ _ hacc' hloop
    · rw [if_neg hstart] at hloop
      cases hloop
      exact hacc

/-- C9 (amended).  Chunk discard rule as the code implements it: a page whose
content is at most `chunkSize` characters is emitted whole as a single chunk
with **no** minimum-length filter; for longer pages, every chunk produced by
the sliding window has trimmed content of **more than** 50 characters (a
window whose trimmed text is 50 characters or shorter is discarded). -/
theorem claimC9_chunk_length (page : DocPage) (chunkSize overlap : ℕ) :
    (page.content.length ≤ chunkSize →
      chunkContent page chunkSize overlap =
        some [{ id := (page.url, 0), path := page.path, title := page.title,
                content := page.content, url := page.url }]) ∧
    (∀ l, chunkContent page chunkSize overlap = some l →
      chunkSize < page.content.length → ∀ c ∈ l, 50 < c.content.length) := by
  constructor
  · intro hle
    rw [chunkContent, if_pos hle]
  · intro l hl hgt c hc
    rw [chunkContent, if_neg (not_le.mpr hgt)] at hl
    exact chunkLoop_content_gt page chunkSize overlap _ _ _ _ l (by intro c hc; simp at hc)
      hl c hc

/-- A 10-character page: shorter than any default chunk, and shorter than the
50-character discard threshold. -/
def tinyPage : DocPage := ⟨"u", "p", "t", ['s', 'h', 'o', 'r', 't', 'p', 'a', 'g', 'e', 'x']⟩

/-- C9, counterexample to the claim as stated: with the default parameters, a
10-character page produces a single chunk whose content is 10 characters —
far below 50 — because the short-content branch performs no length check. -/
theorem claimC9_counterexample :
    chunkContent tinyPage 1000 200 =
      some [{ id := ("u", 0), path := "p", title := "t",
              content := ['s', 'h', 'o', 'r', 't', 'p', 'a', 'g', 'e', 'x'], url := "u" }] ∧
    (['s', 'h', 'o', 'r', 't', 'p', 'a', 'g', 'e', 'x'] : List Char).length < 50 := by
  constructor
  · rw [chunkContent, if_pos (by decide)]
    rfl
  · decide

/-- A 350-character page on which the loop with `chunkSize = 300`,
`overlap = 200` makes no progress: the breakpoint `". "` at index 198 snaps
the window end to 200, and `start = 200 - 200 = 0` again, forever. -/
def stuckPage : DocPage :=
  ⟨"u", "p", "t", List.replicate 198 'a' ++ ['.', ' '] ++ List.replicate 150 'a'⟩

set_option maxRecDepth 8000 in
/-- C10.  Chunker termination: the sliding-window loop terminates for every
page whenever `overlap < chunkSize/2` (each iteration the window start
strictly increases, and fuel `length + 1` is never exhausted) — in particular
for the defaults `chunkSize = 1000`, `overlap = 200`; without that
precondition the loop can fail to make progress: with `chunkSize = 300`,
`overlap = 200` on `stuckPage` the loop never finishes, for any fuel. -/
theorem claimC10_chunker_termination :
    (∀ (page : DocPage) (chunkSize overlap : ℕ), 2 * overlap < chunkSize →
      (chunkContent page chunkSize overlap).isSome = true) ∧
    (∀ (fuel chunkIndex : ℕ) (acc : List Chunk),
      chunkLoop stuckPage 300 200 fuel 0 chunkIndex acc = none) := by
  constructor
  · intro page cs ov hcs
    rw [chunkContent]
    by_cases hle : page.content.length ≤ cs
    · rw [if_pos hle]
      rfl
    · rw [if_neg hle]
      exact chunkLoop_isSome page cs ov hcs _ _ _ _ (by omega)
  · intro fuel
    induction fuel with
    | zero =>
      intro chunkIndex acc
      rw [chunkLoop, if_pos (show 0 < stuckPage.content.length by decide)]
    | succ fuel ih =>
      intro chunkIndex acc
      have hstep : chunkLoop stuckPage 300 200 (fuel + 1) 0 chunkIndex acc =
          chunkLoop stuckPage 300 200 fuel 0 (chunkIndex + 1)
            (acc ++ [chunkMk stuckPage chunkIndex (List.replicate 198 'a' ++ ['.'])]) := rfl
      rw [hstep]
      exact ih _ _

/-! ## Chat route (`src/app/api/chat/route.ts`)

The POST handler's pure core: strategy-dependent retrieval and fusion
(`ENABLE_HYBRID` branch), and the confidence gate that picks the system
prompt.  The external semantic retriever is passed as a function; the BM25
index is the one loaded from storage (`none` when unavailable). -/

inductive RetrievalStrategy
  | semantic
  | keyword
  | hybrid
  deriving DecidableEq, Repr

structure FinalResult where
  id : String
  content : String
  title : String
  url : String
  score : ℝ

def LOW_CONFIDENCE_THRESHOLD : ℝ := 0.3

/-- The request body fields the client sends.  The route parses `message`,
`model` and `retrieval`; the UI (`chat-form.tsx`) additionally sends
`confidenceThreshold`, which the route never reads. -/
structure ChatBody where
  message : String
  model : String
  retrieval : String
  confidenceThreshold : Option ℝ

def SYSTEM_PROMPT_HEADER : String :=
  "You are an expert assistant for OpenClaw documentation.\n\nINSTRUCTIONS:\n1. Answer ONLY from the provided documentation excerpts\n2. If the answer is not in the excerpts, clearly state this\n3. Cite sources using [Source Title](URL) format\n4. For code examples, use the exact code from docs when available\n5. Be concise but complete\n6. If multiple approaches exist, mention the recommended one first\n\nCONFIDENCE:\n- If you're highly confident, answer directly\n- If partially confident, caveat with \"Based on the available documentation...\"\n- If not confident, say \"I couldn't find specific documentation for this...\"\n\nDOCUMENTATION EXCERPTS:\n"

/-- `buildSystemPrompt(context)`: the strict, docs-only prompt. -/
def buildSystemPrompt (context : String) : String := SYSTEM_PROMPT_HEADER ++ context

def GENERAL_PROMPT_BODY : String :=
  "You are an expert assistant for OpenClaw — an open-source AI agent framework.\nYou have deep knowledge of AI, AI agents, LLMs, RAG, prompt engineering, and related topics.\n\nINSTRUCTIONS:\n1. Answer the user's question using your general knowledge of AI and AI agents\n2. Where relevant, explain how the topic relates to OpenClaw or how OpenClaw handles it\n3. If documentation excerpts are provided and relevant, cite them using [Source Title](URL) format\n4. Clearly distinguish between information from the docs and your general knowledge\n5. Be concise but complete\n6. If you are unsure about OpenClaw-specific details, say so rather than guessing\n\nSCOPE:\n- AI concepts, architectures, and best practices\n- AI agents, tool use, planning, and orchestration\n- LLMs, embeddings, RAG, vector databases\n- OpenClaw features, APIs, and workflows\n- Comparisons with other frameworks (when asked)\n- General software engineering in the context of AI applications"

def GENERAL_PROMPT_CONTEXT_INTRO : String :=
  "\n\nThe following documentation excerpts may be partially relevant — cite them with [Source Title](URL) if you use them:\n\n"

/-- `buildGeneralPrompt(context)`: the broader low-confidence prompt; the
retrieved excerpts are appended when nonempty (JS: `context ? ... : \"\"`). -/
def buildGeneralPrompt (context : String) : String :=
  GENERAL_PROMPT_BODY ++
    (if context = "" then "" else GENERAL_PROMPT_CONTEXT_INTRO ++ context)

/-- The prompt context: `finalResults.map(r => `[title](url)\ncontent.slice(0,1200)`).join("\n\n---\n\n")`. -/
def chatContext (finalResults : List FinalResult) : String :=
  String.intercalate "\n\n---\n\n"
    (finalResults.map fun r => "[" ++ r.title ++ "](" ++ r.url ++ ")\n" ++ r.content.take 1200)

structure GateResult where
  isLowConfidence : Bool
  systemPrompt : String

/-- The confidence-gate section of `POST` (route.ts lines 389-402).  Note the
gate compares against the module constant `LOW_CONFIDENCE_THRESHOLD`; the
`body` (including any `confidenceThreshold` the client sent) is not
consulted. -/
noncomputable def confidenceGate (body : ChatBody) (finalResults : List FinalResult) :
    GateResult :=
  let topScores := finalResults.map FinalResult.score
  let hasResults : Bool := !finalResults.isEmpty
  let bestScore : ℝ := if hasResults then topScores.headD 0 else 0
  let isLowConfidence : Bool :=
    !hasResults || (if bestScore < LOW_CONFIDENCE_THRESHOLD then true else false)
  let context := if hasResults then chatContext finalResults else ""
  { isLowConfidence := isLowConfidence
    systemPrompt :=
      if isLowConfidence then buildGeneralPrompt context else buildSystemPrompt context }

/-- C3, counterexample to the claim as stated: the threshold is *not*
caller-tunable.  A request carrying `confidenceThreshold = 0.9` whose top
reranked score is `0.5 < 0.9` is **not** marked low-confidence, because the
gate compares against the fixed constant `0.3` and ignores the body field. -/
theorem claimC3_counterexample :
    (confidenceGate ⟨"q", "gpt-5-mini", "auto", some (9 / 10)⟩
        [⟨"c1", "content", "title", "url", 1 / 2⟩]).isLowConfidence = false ∧
    (1 / 2 : ℝ) < 9 / 10 ∧
    (⟨"q", "gpt-5-mini", "auto", some (9 / 10)⟩ : ChatBody).confidenceThreshold =
      some (9 / 10) := by
  refine ⟨?_, by norm_num, rfl⟩
  rw [confidenceGate]
  have hlt : ¬((1 : ℝ) / 2 < LOW_CONFIDENCE_THRESHOLD) := by
    rw [LOW_CONFIDENCE_THRESHOLD]
    norm_num
  simp [hlt]
  rw [LOW_CONFIDENCE_THRESHOLD]
  norm_num

/-- C3 (amended).  The gate's threshold is the fixed constant `0.3` (the
client sends `confidenceThreshold`, but the route ignores it): whenever there
are no results, or the top score is below `0.3`, the response is marked
low-confidence and generated with the broader general prompt, and the
retrieved passages are still included in the prompt context (the prompt ends
with the passage context whenever it is nonempty). -/
theorem claimC3_confidence_gate (body : ChatBody) (finalResults : List FinalResult) :
    LOW_CONFIDENCE_THRESHOLD = 3 / 10 ∧
    ((confidenceGate body []).isLowConfidence = true ∧
      (confidenceGate body []).systemPrompt = buildGeneralPrompt "") ∧
    (∀ r rs, finalResults = r :: rs → r.score < LOW_CONFIDENCE_THRESHOLD →
      (confidenceGate body finalResults).isLowConfidence = true ∧
      (confidenceGate body finalResults).systemPrompt =
        buildGeneralPrompt (chatContext finalResults) ∧
      (chatContext finalResults ≠ "" →
        ∃ pre, (confidenceGate body finalResults).systemPrompt =
          pre ++ chatContext finalResults)) := by
  refine ⟨by rw [LOW_CONFIDENCE_THRESHOLD]; norm_num, ⟨?_, ?_⟩, ?_⟩
  · rw [confidenceGate]
    rfl
  · rw [confidenceGate]
    rfl
  · intro r rs hcons hlt
    subst hcons
    have hhead : ((r :: rs).map FinalResult.score).headD 0 = r.score := rfl
    have hlow : (confidenceGate body (r :: rs)).isLowConfidence = true := by
      rw [confidenceGate]
      simp only [List.isEmpty_cons, Bool.not_false, Bool.false_or, if_true, hhead]
      simp [hlt]
    refine ⟨hlow, ?_, ?_⟩
    · rw [confidenceGate] at hlow ⊢
      simp only [] at hlow ⊢
      rw [hlow]
      simp
    · intro hne
      rw [confidenceGate] at hlow ⊢
      simp only [] at hlow ⊢
      rw [hlow]
      simp only [if_true]
      rw [buildGeneralPrompt]
      refine ⟨GENERAL_PROMPT_BODY ++ GENERAL_PROMPT_CONTEXT_INTRO, ?_⟩
      simp only [List.isEmpty_cons, Bool.not_false, if_true]
      rw [if_neg hne, String.append_assoc]

/-- The hybrid retrieve/fuse branch of `POST` (route.ts lines 263-339):
strategy-dependent retrieval, then fusion. -/
noncomputable def hybridFusedResults (strategy : RetrievalStrategy)
    (termIndex : Option TermIndex) (retrieve : String → ℕ → List RetrievalResult)
    (expanded : String) (keywords : List String) : List FusedResult :=
  let semanticResults := if strategy ≠ RetrievalStrategy.keyword then retrieve expanded 20 else []
  let keywordResults :=
    match termIndex with
    | some idx =>
        if strategy ≠ RetrievalStrategy.semantic then
          bm25Search idx DEFAULT_K1 DEFAULT_B (String.intercalate " " keywords) 20
        else []
    | none => []
  let chunkMap := semanticResults.map fun r => (r.chunk.id, r.chunk)
  if strategy = RetrievalStrategy.hybrid ∧ 0 < keywordResults.length ∧
      0 < semanticResults.length then
    reciprocalRankFusion semanticResults keywordResults chunkMap DEFAULT_RRF_K
  else if strategy = RetrievalStrategy.keyword ∧ 0 < keywordResults.length then
    if 0 < semanticResults.length then
      let keywordIds := setFromList (keywordResults.map BM25Result.id)
      let matchingResults := semanticResults.filter fun r => r.chunk.id ∈ keywordIds
      matchingResults.enum.map fun ir =>
        { id := ir.2.chunk.id
          chunk := ir.2.chunk
          semanticRank := none
          semanticScore := none
          keywordRank := some (ir.1 + 1)
          keywordScore :=
            some (((keywordResults.find? fun kr => kr.id = ir.2.chunk.id).map BM25Result.score).getD 0)
          fusedScore :=
            ((keywordResults.find? fun kr => kr.id = ir.2.chunk.id).map BM25Result.score).getD 0 }
    else
      let semanticFallback := retrieve expanded 20
      reciprocalRankFusion semanticFallback keywordResults
        (semanticFallback.foldl (fun m r => mapSet m r.chunk.id r.chunk) chunkMap) DEFAULT_RRF_K
  else
    semanticResults.enum.map fun ir =>
      { id := ir.2.chunk.id
        chunk := ir.2.chunk
        semanticRank := some (ir.1 + 1)
        semanticScore := some ir.2.score
        keywordRank := none
        keywordScore := none
        fusedScore := ir.2.score }

/-- C4 (the code, at the claim's failing input).  Keyword-only strategy with
no BM25 term index yields an **empty** fused result list — semantic retrieval
is skipped entirely for the keyword strategy (`strategy !== "keyword"` guards
it), so nothing degrades to semantic-only — for every semantic retriever,
including one that would return results. -/
theorem claimC4_keyword_no_index_empty (retrieve : String → ℕ → List RetrievalResult)
    (expanded : String) (keywords : List String) :
    hybridFusedResults RetrievalStrategy.keyword none retrieve expanded keywords = [] := by
  rw [hybridFusedResults]
  simp

/-! ## C1 counterexample: the phrase base score is the corpus top-1, not the
candidate's own score -/

theorem calculatePhraseScore_eq_span (idx : TermIndex) (k1 b : ℝ) (docId : String)
    (tokens : List String) (first : List ℕ) (rest : List (List ℕ)) (m : ℕ)
    (htp : tokenPositionsFor idx docId tokens = some (first :: rest))
    (hspan : minSpanAux rest first = some m) :
    calculatePhraseScore idx k1 b docId tokens =
      phraseBase idx k1 b tokens * (1 + ((tokens.length : ℝ) - 1) / ((m : ℝ) + 1)) := by
  have hred : calculatePhraseScore idx k1 b docId tokens =
      match minSpanAux rest first with
      | none => phraseBase idx k1 b tokens * 0.5
      | some m =>
          phraseBase idx k1 b tokens * (1 + ((tokens.length : ℝ) - 1) / ((m : ℝ) + 1)) := by
    rw [calculatePhraseScore, htp]
  rw [hred, hspan]

/-- A two-document index: `"A"` holds `alpha beta alpha beta` (four tokens),
`"B"` holds `alpha beta` (two tokens); `avgDocLength = 3`, `totalDocs = 2`. -/
noncomputable def cexIdx : TermIndex :=
  { terms := [("alpha", [⟨"A", 2, [0, 2]⟩, ⟨"B", 1, [0]⟩]),
              ("beta", [⟨"A", 2, [1, 3]⟩, ⟨"B", 1, [1]⟩])]
    docLengths := [("A", 4), ("B", 2)]
    avgDocLength := 3
    totalDocs := 2 }

theorem cex_idf_alpha : idfOf cexIdx "alpha" = Real.log (6 / 5) := by
  rw [idfOf]
  have hlen : (postingsOf cexIdx "alpha").length = 2 := rfl
  have htd : cexIdx.totalDocs = 2 := rfl
  rw [hlen, htd]
  norm_num

theorem cex_idf_beta : idfOf cexIdx "beta" = Real.log (6 / 5) := by
  rw [idfOf]
  have hlen : (postingsOf cexIdx "beta").length = 2 := rfl
  have htd : cexIdx.totalDocs = 2 := rfl
  rw [hlen, htd]
  norm_num

theorem cex_docLen_A : docLenOf cexIdx "A" = ((4 : ℕ) : ℝ) := by
  rw [docLenOf]
  have h : mapGet cexIdx.docLengths "A" = some 4 := by decide
  rw [h]
  norm_num

theorem cex_docLen_B : docLenOf cexIdx "B" = ((2 : ℕ) : ℝ) := by
  rw [docLenOf]
  have h : mapGet cexIdx.docLengths "B" = some 2 := by decide
  rw [h]
  norm_num

theorem cex_ts_A_alpha :
    termScore cexIdx DEFAULT_K1 DEFAULT_B "alpha" ⟨"A", 2, [0, 2]⟩ =
      Real.log (6 / 5) * (40 / 31) := by
  rw [termScore, cex_idf_alpha, DEFAULT_K1, DEFAULT_B]
  have hdl : docLenOf cexIdx (TermPosting.id ⟨"A", 2, [0, 2]⟩) = ((4 : ℕ) : ℝ) := cex_docLen_A
  have havg : cexIdx.avgDocLength = 3 := rfl
  rw [hdl, havg]
  norm_num

theorem cex_ts_A_beta :
    termScore cexIdx DEFAULT_K1 DEFAULT_B "beta" ⟨"A", 2, [1, 3]⟩ =
      Real.log (6 / 5) * (40 / 31) := by
  rw [termScore, cex_idf_beta, DEFAULT_K1, DEFAULT_B]
  have hdl : docLenOf cexIdx (TermPosting.id ⟨"A", 2, [1, 3]⟩) = ((4 : ℕ) : ℝ) := cex_docLen_A
  have havg : cexIdx.avgDocLength = 3 := rfl
  rw [hdl, havg]
  norm_num

theorem cex_ts_B_alpha :
    termScore cexIdx DEFAULT_K1 DEFAULT_B "alpha" ⟨"B", 1, [0]⟩ =
      Real.log (6 / 5) * (20 / 17) := by
  rw [termScore, cex_idf_alpha, DEFAULT_K1, DEFAULT_B]
  have hdl : docLenOf cexIdx (TermPosting.id ⟨"B", 1, [0]⟩) = ((2 : ℕ) : ℝ) := cex_docLen_B
  have havg : cexIdx.avgDocLength = 3 := rfl
  rw [hdl, havg]
  norm_num

theorem cex_ts_B_beta :
    termScore cexIdx DEFAULT_K1 DEFAULT_B "beta" ⟨"B", 1, [1]⟩ =
      Real.log (6 / 5) * (20 / 17) := by
  rw [termScore, cex_idf_beta, DEFAULT_K1, DEFAULT_B]
  have hdl : docLenOf cexIdx (TermPosting.id ⟨"B", 1, [1]⟩) = ((2 : ℕ) : ℝ) := cex_docLen_B
  have havg : cexIdx.avgDocLength = 3 := rfl
  rw [hdl, havg]
  norm_num

theorem cex_bm25_A :
    bm25DocScore cexIdx DEFAULT_K1 DEFAULT_B ["alpha", "beta"] "A" =
      Real.log (6 / 5) * (80 / 31) := by
  have hunfold : bm25DocScore cexIdx DEFAULT_K1 DEFAULT_B ["alpha", "beta"] "A" =
      (termScore cexIdx DEFAULT_K1 DEFAULT_B "alpha" ⟨"A", 2, [0, 2]⟩ + 0) +
        ((termScore cexIdx DEFAULT_K1 DEFAULT_B "beta" ⟨"A", 2, [1, 3]⟩ + 0) + 0) := rfl
  rw [hunfold, cex_ts_A_alpha, cex_ts_A_beta]
  ring

theorem cex_bm25_B :
    bm25DocScore cexIdx DEFAULT_K1 DEFAULT_B ["alpha", "beta"] "B" =
      Real.log (6 / 5) * (40 / 17) := by
  have hunfold : bm25DocScore cexIdx DEFAULT_K1 DEFAULT_B ["alpha", "beta"] "B" =
      (termScore cexIdx DEFAULT_K1 DEFAULT_B "alpha" ⟨"B", 1, [0]⟩ + 0) +
        ((termScore cexIdx DEFAULT_K1 DEFAULT_B "beta" ⟨"B", 1, [1]⟩ + 0) + 0) := rfl
  rw [hunfold, cex_ts_B_alpha, cex_ts_B_beta]
  ring

theorem cex_log_pos : 0 < Real.log (6 / 5) := Real.log_pos (by norm_num)

theorem cex_scores :
    searchScoresList cexIdx DEFAULT_K1 DEFAULT_B ["alpha", "beta"] =
      [("A", (0 + termScore cexIdx DEFAULT_K1 DEFAULT_B "alpha" ⟨"A", 2, [0, 2]⟩) +
          termScore cexIdx DEFAULT_K1 DEFAULT_B "beta" ⟨"A", 2, [1, 3]⟩),
       ("B", (0 + termScore cexIdx DEFAULT_K1 DEFAULT_B "alpha" ⟨"B", 1, [0]⟩) +
          termScore cexIdx DEFAULT_K1 DEFAULT_B "beta" ⟨"B", 1, [1]⟩)] := rfl

theorem cex_vA :
    (0 + termScore cexIdx DEFAULT_K1 DEFAULT_B "alpha" ⟨"A", 2, [0, 2]⟩) +
        termScore cexIdx DEFAULT_K1 DEFAULT_B "beta" ⟨"A", 2, [1, 3]⟩ =
      Real.log (6 / 5) * (80 / 31) := by
  rw [cex_ts_A_alpha, cex_ts_A_beta]
  ring

theorem cex_vB :
    (0 + termScore cexIdx DEFAULT_K1 DEFAULT_B "alpha" ⟨"B", 1, [0]⟩) +
        termScore cexIdx DEFAULT_K1 DEFAULT_B "beta" ⟨"B", 1, [1]⟩ =
      Real.log (6 / 5) * (40 / 17) := by
  rw [cex_ts_B_alpha, cex_ts_B_beta]
  ring

/-- The plain search over the joined token bag puts document `"A"` on top. -/
theorem cex_search_top :
    bm25Search cexIdx DEFAULT_K1 DEFAULT_B "alpha beta" 1 =
      [⟨"A", (0 + termScore cexIdx DEFAULT_K1 DEFAULT_B "alpha" ⟨"A", 2, [0, 2]⟩) +
          termScore cexIdx DEFAULT_K1 DEFAULT_B "beta" ⟨"A", 2, [1, 3]⟩⟩] := by
  have hne : ¬(jsTokenize "alpha beta").isEmpty = true := by decide
  rw [bm25Search_of_ne _ _ _ _ _ hne]
  have htok : jsTokenize "alpha beta" = ["alpha", "beta"] := by decide
  rw [htok, cex_scores]
  have hlt : (0 + termScore cexIdx DEFAULT_K1 DEFAULT_B "alpha" ⟨"B", 1, [0]⟩) +
        termScore cexIdx DEFAULT_K1 DEFAULT_B "beta" ⟨"B", 1, [1]⟩ <
      (0 + termScore cexIdx DEFAULT_K1 DEFAULT_B "alpha" ⟨"A", 2, [0, 2]⟩) +
        termScore cexIdx DEFAULT_K1 DEFAULT_B "beta" ⟨"A", 2, [1, 3]⟩ := by
    rw [cex_vA, cex_vB]
    exact mul_lt_mul_of_pos_left (by norm_num) cex_log_pos
  rw [List.map_cons, List.map_cons, List.map_nil]
  rw [sortDesc, sortDesc, sortDesc, insertDesc, insertDesc, if_neg (not_lt.mpr (le_of_lt hlt))]
  rfl

theorem cex_base :
    phraseBase cexIdx DEFAULT_K1 DEFAULT_B ["alpha", "beta"] =
      Real.log (6 / 5) * (80 / 31) := by
  rw [phraseBase]
  have hjoin : String.intercalate " " ["alpha", "beta"] = "alpha beta" := rfl
  rw [hjoin, cex_search_top]
  rw [headScore]
  exact cex_vA

theorem cex_calc_A :
    calculatePhraseScore cexIdx DEFAULT_K1 DEFAULT_B "A" ["alpha", "beta"] =
      Real.log (6 / 5) * (80 / 31) * (3 / 2) := by
  have htp : tokenPositionsFor cexIdx "A" ["alpha", "beta"] = some [[0, 2], [1, 3]] := by decide
  have hsp : minSpanAux [[1, 3]] [0, 2] = some 1 := by decide
  rw [calculatePhraseScore_eq_span cexIdx DEFAULT_K1 DEFAULT_B "A" ["alpha", "beta"]
    [0, 2] [[1, 3]] 1 htp hsp, cex_base]
  norm_num

theorem cex_calc_B :
    calculatePhraseScore cexIdx DEFAULT_K1 DEFAULT_B "B" ["alpha", "beta"] =
      Real.log (6 / 5) * (80 / 31) * (3 / 2) := by
  have htp : tokenPositionsFor cexIdx "B" ["alpha", "beta"] = some [[0], [1]] := by decide
  have hsp : minSpanAux [[1]] [0] = some 1 := by decide
  rw [calculatePhraseScore_eq_span cexIdx DEFAULT_K1 DEFAULT_B "B" ["alpha", "beta"]
    [0] [[1]] 1 htp hsp, cex_base]
  norm_num

theorem cex_phrase_pos : (0 : ℝ) < Real.log (6 / 5) * (80 / 31) * (3 / 2) := by
  have := cex_log_pos
  nlinarith

theorem cex_phraseScores :
    phraseScoresList cexIdx DEFAULT_K1 DEFAULT_B ["alpha", "beta"] =
      [("A", Real.log (6 / 5) * (80 / 31) * (3 / 2)),
       ("B", Real.log (6 / 5) * (80 / 31) * (3 / 2))] := by
  have hcand : findDocsWithAllTokens cexIdx ["alpha", "beta"] = ["A", "B"] := by decide
  rw [phraseScoresList, hcand]
  simp only [List.filterMap_cons, List.filterMap_nil]
  rw [cex_calc_A, cex_calc_B, if_pos cex_phrase_pos, if_pos cex_phrase_pos]

/-- C1, counterexample to the claim as stated: in `cexIdx`, both candidates
have minimal span 1 and the claim predicts each is scored as *its own* plain
BM25 score times `(1 + idealSpan/(minSpan+1)) = 3/2`; the code instead scores
**both** candidates as the corpus-top plain score (document `"A"`'s) times
`3/2`, so candidate `"B"`'s returned score differs from the claimed value. -/
theorem claimC1_counterexample :
    ((searchPhrase cexIdx DEFAULT_K1 DEFAULT_B "alpha beta" 20).map
        (fun r => (r.id, r.score)) =
      [("A", Real.log (6 / 5) * (80 / 31) * (3 / 2)),
       ("B", Real.log (6 / 5) * (80 / 31) * (3 / 2))]) ∧
    minSpanOf cexIdx ["alpha", "beta"] "B" = some 1 ∧
    phraseBase cexIdx DEFAULT_K1 DEFAULT_B ["alpha", "beta"] =
      bm25DocScore cexIdx DEFAULT_K1 DEFAULT_B ["alpha", "beta"] "A" ∧
    Real.log (6 / 5) * (80 / 31) * (3 / 2) ≠
      bm25DocScore cexIdx DEFAULT_K1 DEFAULT_B ["alpha", "beta"] "B" * (1 + 1 / 2) := by
  refine ⟨?_, by decide, ?_, ?_⟩
  · have h2 : ¬(jsTokenize "alpha beta").length < 2 := by decide
    have hcandne : findDocsWithAllTokens cexIdx (jsTokenize "alpha beta") ≠ [] := by decide
    rw [searchPhrase_of_candidates _ _ _ _ _ h2 hcandne]
    have htok : jsTokenize "alpha beta" = ["alpha", "beta"] := by decide
    rw [htok, cex_phraseScores]
    rw [List.map_cons, List.map_cons, List.map_nil]
    rw [sortDesc, sortDesc, sortDesc, insertDesc, insertDesc,
      if_neg (lt_irrefl (Real.log (6 / 5) * (80 / 31) * (3 / 2)))]
    rw [List.take_of_length_le (by norm_num)]
    rfl
  · rw [cex_base, cex_bm25_A]
  · rw [cex_bm25_B]
    intro h
    have := cex_log_pos
    nlinarith

/-! ## Witnesses: concrete instantiations discharging each theorem's
hypotheses -/

theorem claimC1_phrase_scoring_witness :
    2 ≤ (jsTokenize "alpha beta").length ∧
    findDocsWithAllTokens cexIdx (jsTokenize "alpha beta") ≠ [] ∧
    ((∀ r ∈ searchPhrase cexIdx DEFAULT_K1 DEFAULT_B "alpha beta" 20,
      r.id ∈ findDocsWithAllTokens cexIdx (jsTokenize "alpha beta") ∧
      0 < r.score ∧
      r.score = (match minSpanOf cexIdx (jsTokenize "alpha beta") r.id with
        | some m => phraseBase cexIdx DEFAULT_K1 DEFAULT_B (jsTokenize "alpha beta") *
            (1 + (((jsTokenize "alpha beta").length : ℝ) - 1) / ((m : ℝ) + 1))
        | none => phraseBase cexIdx DEFAULT_K1 DEFAULT_B (jsTokenize "alpha beta") * 0.5))) :=
  ⟨by decide, by decide,
    (claimC1_phrase_scoring cexIdx "alpha beta" 20 (by decide) (by decide)).1⟩

theorem claimC2_bm25_search_witness :
    bm25Search cexIdx DEFAULT_K1 DEFAULT_B "" 20 = [] :=
  (claimC2_bm25_search cexIdx "" 20).1 (by decide)

theorem claimC3_confidence_gate_witness :
    (confidenceGate ⟨"q", "gpt-5-mini", "auto", none⟩
      [⟨"c1", "body text", "Title", "https://docs", 1 / 10⟩]).isLowConfidence = true :=
  ((claimC3_confidence_gate ⟨"q", "gpt-5-mini", "auto", none⟩
      [⟨"c1", "body text", "Title", "https://docs", 1 / 10⟩]).2.2
    ⟨"c1", "body text", "Title", "https://docs", 1 / 10⟩ [] rfl
    (by rw [LOW_CONFIDENCE_THRESHOLD]; norm_num)).1

def witChunk : DocsChunk := ⟨"c1", "/p", "T", "content", "https://u"⟩

theorem claimC6_rrf_witness :
    (reciprocalRankFusion (scaleSem 2 [⟨witChunk, 1⟩]) [⟨"c1", 5⟩]
        [("c1", witChunk)] 60).map FusedResult.id =
      (reciprocalRankFusion [⟨witChunk, 1⟩] [⟨"c1", 5⟩] [("c1", witChunk)] 60).map
        FusedResult.id :=
  (claimC6_rrf_rank_order_only [⟨witChunk, 1⟩] [⟨"c1", 5⟩] [("c1", witChunk)] 60 2
    (by norm_num)).2

theorem claimC7_termIndex_witness :
    (buildTermIndex [⟨"a", "alpha beta", ""⟩, ⟨"b", "gamma", ""⟩]).avgDocLength =
      (sumVals (buildTermIndex [⟨"a", "alpha beta", ""⟩, ⟨"b", "gamma", ""⟩]).docLengths : ℝ) /
        ((buildTermIndex [⟨"a", "alpha beta", ""⟩, ⟨"b", "gamma", ""⟩]).totalDocs : ℝ) :=
  (claimC7_termIndex_invariant [⟨"a", "alpha beta", ""⟩, ⟨"b", "gamma", ""⟩]).1 (by decide)

noncomputable def witIdx : TermIndex :=
  { terms := [("alpha", [⟨"a", 1, [0]⟩]), ("beta", [⟨"a", 1, [1]⟩])]
    docLengths := [("a", 2)]
    avgDocLength := 2
    totalDocs := 1 }

theorem claimC8_round_trip_witness :
    deserializeTermIndex (serializeTermIndex witIdx) = witIdx :=
  claimC8_serialization_round_trip witIdx (by decide) (by decide)

def partPage : DocPage := ⟨"u", "p", "t", List.replicate 130 'a'⟩

set_option maxRecDepth 8000 in
theorem claimC9_chunk_length_witness :
    (chunkContent tinyPage 1000 200 =
      some [{ id := ("u", 0), path := "p", title := "t",
              content := ['s', 'h', 'o', 'r', 't', 'p', 'a', 'g', 'e', 'x'], url := "u" }]) ∧
    (∀ c ∈ [({ id := ("u", 0), path := "p", title := "t",
               content := List.replicate 60 'a', url := "u" } : Chunk),
            ({ id := ("u", 1), path := "p", title := "t (Part 2)",
               content := List.replicate 60 'a', url := "u" } : Chunk)],
      50 < c.content.length) :=
  ⟨(claimC9_chunk_length tinyPage 1000 200).1 (by decide),
   (claimC9_chunk_length partPage 60 5).2 _ (by decide) (by decide)⟩

theorem claimC10_chunker_witness : (chunkContent partPage 60 5).isSome = true :=
  claimC10_chunker_termination.1 partPage 60 5 (by norm_num)

end OpenClaw
